import Mathlib

/-!
Verification of the CPU-scheduling core of `josue/app.py`.

The embedding translates the data model (`Process`, `Slice`, `Result`), the
four scheduling algorithms (`fcfs`, `sjf_non_preemptive`,
`priority_non_preemptive`, `round_robin`), the metrics calculator
(`compute_metrics`) and the dispatcher (`run_one`) into executable Lean
definitions.  Python `int` is modelled by `Int`, Python `float` averages by
`ℚ` (the concrete values in the claims are exactly representable), Python
dicts by insertion-ordered association lists with overwrite-in-place
semantics, and the `while` loops by fuel-indexed recursion returning
`Option` (`none` models non-termination / not enough fuel); sufficiency of
the fuel is proved below.  Python's stable `sort(key=...)` is modelled by a
stable insertion sort over the corresponding total preorder: any two stable
sorts agree on every input, so this is observation-equivalent to the source.
-/

/-- `Process` dataclass from the source: pid, arrival, burst, priority. -/
structure Process where
  pid : String
  arrival : Int
  burst : Int
  priority : Int
deriving DecidableEq, Repr

/-- `Slice` dataclass: one contiguous span of CPU given to one pid. -/
structure Slice where
  pid : String
  start : Int
  «end» : Int
deriving DecidableEq, Repr

/-- `Result` dataclass: timeline plus per-pid metric dictionaries and averages. -/
structure Result where
  algorithm : String
  timeline : List Slice
  waiting_times : List (String × Int)
  response_times : List (String × Int)
  turnaround_times : List (String × Int)
  avg_waiting : ℚ
  avg_response : ℚ
  avg_turnaround : ℚ
deriving DecidableEq, Repr

/-- Python dict assignment `d[k] = v`: overwrite in place if the key exists,
otherwise append at the end (insertion order preserved). -/
def dictInsert {α : Type} (d : List (String × α)) (k : String) (v : α) :
    List (String × α) :=
  if d.any (fun kv => kv.1 == k) then
    d.map (fun kv => if kv.1 == k then (k, v) else kv)
  else d ++ [(k, v)]

/-- Python dict read `d[k]`: `none` models a `KeyError`. -/
def dictGet {α : Type} (d : List (String × α)) (k : String) : Option α :=
  (d.find? (fun kv => kv.1 == k)).map (fun kv => kv.2)

/-- Stable insertion of `a` into `l`: `a` goes in front of the first element
`b` with `le a b`.  Used to model Python's stable `list.sort`. -/
def insertLe {α : Type} (le : α → α → Bool) (a : α) : List α → List α
  | [] => [a]
  | b :: l => if le a b then a :: b :: l else b :: insertLe le a l

/-- Stable sort by the total preorder `le`; model of Python's `sorted(key=...)`. -/
def sortLe {α : Type} (le : α → α → Bool) : List α → List α
  | [] => []
  | a :: l => insertLe le a (sortLe le l)

/-- Sort key of `sorted(processes, key=lambda x: x.arrival)`. -/
def arrivalLe (a b : Process) : Bool := decide (a.arrival ≤ b.arrival)

/-- Sort key of `ready.sort(key=lambda p: (p.burst, p.arrival, p.pid))`. -/
def sjfLe (a b : Process) : Bool :=
  decide (a.burst < b.burst ∨ (a.burst = b.burst ∧
    (a.arrival < b.arrival ∨ (a.arrival = b.arrival ∧ a.pid ≤ b.pid))))

/-- Sort key of `ready.sort(key=lambda p: (p.priority, p.arrival, p.pid))`. -/
def prioLe (a b : Process) : Bool :=
  decide (a.priority < b.priority ∨ (a.priority = b.priority ∧
    (a.arrival < b.arrival ∨ (a.arrival = b.arrival ∧ a.pid ≤ b.pid))))

/-- One pass of `compute_metrics` over the timeline, building `first_start`
and `finish_time`.  Reading `first_start[sl.pid]` for an unknown pid is a
`KeyError`, modelled as `none`.  (`finish_time[sl.pid] = sl.end` is an
assignment and cannot fail.) -/
def scanTimeline : List Slice → List (String × Option Int) → List (String × Int) →
    Option (List (String × Option Int) × List (String × Int))
  | [], fs, ft => some (fs, ft)
  | sl :: rest, fs, ft =>
    match dictGet fs sl.pid with
    | none => none
    | some cur =>
      let fs1 := match cur with
        | none => dictInsert fs sl.pid (some sl.start)
        | some _ => fs
      scanTimeline rest fs1 (dictInsert ft sl.pid sl.«end»)

/-- Per-process response time, as computed by `compute_metrics` once the
`first_start` dictionary `fs` has been built. -/
def rtOf (fs : List (String × Option Int)) (p : Process) : Int :=
  match (dictGet fs p.pid).getD none with
  | some s => s - p.arrival
  | none => 0

/-- Per-process turnaround time, from the `finish_time` dictionary `ft`. -/
def ttOf (ft : List (String × Int)) (p : Process) : Int :=
  (dictGet ft p.pid).getD 0 - p.arrival

/-- Per-process waiting time. -/
def wtOf (ft : List (String × Int)) (p : Process) : Int :=
  ttOf ft p - p.burst

/-- Tail of `compute_metrics`: build the three per-pid dictionaries and the
averages (divisor floored to 1) from the two scan dictionaries. -/
def metricsFrom (algorithm : String) (procs : List Process)
    (timeline : List Slice) (fs : List (String × Option Int))
    (ft : List (String × Int)) : Result :=
  let response_times := procs.foldl (fun d p => dictInsert d p.pid (rtOf fs p)) []
  let turnaround_times := procs.foldl (fun d p => dictInsert d p.pid (ttOf ft p)) []
  let waiting_times := procs.foldl (fun d p => dictInsert d p.pid (wtOf ft p)) []
  let n : ℚ := (max 1 procs.length : ℕ)
  { algorithm := algorithm
    timeline := timeline
    waiting_times := waiting_times
    response_times := response_times
    turnaround_times := turnaround_times
    avg_waiting := (((waiting_times.map Prod.snd).sum : Int) : ℚ) / n
    avg_response := (((response_times.map Prod.snd).sum : Int) : ℚ) / n
    avg_turnaround := (((turnaround_times.map Prod.snd).sum : Int) : ℚ) / n }

/-- `compute_metrics` from the source.  The `run_time` dictionary computed
there does not flow into the `Result` and is omitted; its reads cannot fail
once the `first_start` pass has succeeded, since it is keyed identically. -/
def compute_metrics (algorithm : String) (procs : List Process)
    (timeline : List Slice) : Option Result :=
  let first_start0 : List (String × Option Int) :=
    procs.foldl (fun d p => dictInsert d p.pid none) []
  let finish_time0 : List (String × Int) :=
    procs.foldl (fun d p => dictInsert d p.pid 0) []
  match scanTimeline timeline first_start0 finish_time0 with
  | none => none
  | some (fs, ft) => some (metricsFrom algorithm procs timeline fs ft)

/-- Timeline loop of `fcfs`: walk the arrival-sorted list, jump the clock to
the arrival when the CPU is idle, emit one full-burst slice per process. -/
def fcfsLoop : Int → List Process → List Slice
  | _, [] => []
  | t, p :: rest =>
    let t1 := if t < p.arrival then p.arrival else t
    Slice.mk p.pid t1 (t1 + p.burst) :: fcfsLoop (t1 + p.burst) rest

/-- `fcfs` from the source. -/
def fcfs (processes : List Process) : Option Result :=
  compute_metrics "FCFS" processes (fcfsLoop 0 (sortLe arrivalLe processes))

/-- Shared loop of `sjf_non_preemptive` and `priority_non_preemptive` (they
differ only in the `ready.sort` key).  One fuel unit corresponds to one
iteration of the Python `while` loop; `none` models running out of fuel. -/
def npLoop (key : Process → Process → Bool) :
    Nat → Int → List Process → List Process → List Slice → Option (List Slice)
  | 0, _, pending, ready, acc =>
    if pending.isEmpty && ready.isEmpty then some acc else none
  | fuel+1, t, pending, ready, acc =>
    let arrived := pending.takeWhile (fun p => decide (p.arrival ≤ t))
    let rest := pending.dropWhile (fun p => decide (p.arrival ≤ t))
    match sortLe key (ready ++ arrived), rest with
    | [], [] => some acc
    | [], nxt :: _ => npLoop key fuel nxt.arrival rest [] acc
    | p :: others, rest1 =>
      npLoop key fuel (t + p.burst) rest1 others
        (acc ++ [Slice.mk p.pid t (t + p.burst)])

/-- Fuel bound for `npLoop`: jump iterations and pop iterations alternate,
and each pop removes one process, so `2·n + 1` iterations always suffice. -/
def npFuel (processes : List Process) : Nat := 2 * processes.length + 1

/-- `sjf_non_preemptive` from the source. -/
def sjf_non_preemptive (processes : List Process) : Option Result :=
  match npLoop sjfLe (npFuel processes) 0 (sortLe arrivalLe processes) [] [] with
  | none => none
  | some tl => compute_metrics "SJF (non-preemptive)" processes tl

/-- `priority_non_preemptive` from the source. -/
def priority_non_preemptive (processes : List Process) : Option Result :=
  match npLoop prioLe (npFuel processes) 0 (sortLe arrivalLe processes) [] [] with
  | none => none
  | some tl => compute_metrics "Priority (non-preemptive)" processes tl

/-- Loop of `round_robin`.  One fuel unit per iteration of the Python
`while` loop; `none` models non-termination (e.g. `quantum ≤ 0` with work
left) or insufficient fuel. -/
def rrLoop (quantum : Int) :
    Nat → Int → List Process → List (Process × Int) → List Slice →
    Option (List Slice)
  | 0, _, pending, queue, acc =>
    if pending.isEmpty && queue.isEmpty then some acc else none
  | fuel+1, t, pending, queue, acc =>
    let arrived := pending.takeWhile (fun p => decide (p.arrival ≤ t))
    let rest := pending.dropWhile (fun p => decide (p.arrival ≤ t))
    match queue ++ arrived.map (fun p => (p, p.burst)), rest with
    | [], [] => some acc
    | [], nxt :: _ => rrLoop quantum fuel nxt.arrival rest [] acc
    | (p, rem) :: qtl, rest1 =>
      let use := min quantum rem
      let tEnd := t + use
      let arrived2 := rest1.takeWhile (fun x => decide (x.arrival ≤ tEnd))
      let rest2 := rest1.dropWhile (fun x => decide (x.arrival ≤ tEnd))
      let queue2 := qtl ++ arrived2.map (fun x => (x, x.burst))
      let queue3 := if 0 < rem - use then queue2 ++ [(p, rem - use)] else queue2
      rrLoop quantum fuel tEnd rest2 queue3 (acc ++ [Slice.mk p.pid t tEnd])

/-- Fuel bound for `rrLoop`: with `quantum ≥ 1` and positive bursts each pop
consumes at least one unit of remaining burst, and jump iterations alternate
with pops, so `2·(total burst) + 1` iterations suffice. -/
def rrFuel (processes : List Process) : Nat :=
  2 * (processes.map (fun p => p.burst.toNat)).sum + 1

/-- `round_robin` from the source. -/
def round_robin (processes : List Process) (quantum : Int) : Option Result :=
  match rrLoop quantum (rrFuel processes) 0 (sortLe arrivalLe processes) [] [] with
  | none => none
  | some tl =>
    compute_metrics ("Round Robin (q=" ++ toString quantum ++ ")") processes tl

/-- `run_one` from `simulate_api`: dispatch on the algorithm name; the
quantum is clamped to at least 1 for round robin; unknown names fall back
to FCFS. -/
def run_one (name : String) (procs : List Process) (quantum : Int) :
    Option Result :=
  if name = "FCFS" then fcfs procs
  else if name = "SJF" then sjf_non_preemptive procs
  else if name = "PRIORITY" then priority_non_preemptive procs
  else if name = "RR" then round_robin procs (max 1 quantum)
  else fcfs procs

/-- The four algorithm names of the facade, as an enumeration. -/
inductive Alg
  | FCFS
  | SJF
  | PRIORITY
  | RR
deriving DecidableEq, Repr

/-- Run one of the four algorithms (the quantum is only used by round robin). -/
def runAlg : Alg → List Process → Int → Option Result
  | Alg.FCFS, procs, _ => fcfs procs
  | Alg.SJF, procs, _ => sjf_non_preemptive procs
  | Alg.PRIORITY, procs, _ => priority_non_preemptive procs
  | Alg.RR, procs, q => round_robin procs q

/-! ### Observation functions used by the claims -/

/-- Total duration of the slices of `tl` bearing pid `s`. -/
def durFor (s : String) (tl : List Slice) : Int :=
  ((tl.filter (fun sl => sl.pid == s)).map (fun sl => sl.«end» - sl.start)).sum

/-- Number of slices of `tl` bearing pid `s`. -/
def countFor (s : String) (tl : List Slice) : Nat :=
  tl.countP (fun sl => sl.pid == s)

/-- Total burst of the processes of `l` bearing pid `s`. -/
def burstFor (s : String) (l : List Process) : Int :=
  ((l.filter (fun p => p.pid == s)).map (fun p => p.burst)).sum

/-- Total remaining burst of the queue entries of `q` bearing pid `s`. -/
def remFor (s : String) (q : List (Process × Int)) : Int :=
  ((q.filter (fun e => e.1.pid == s)).map (fun e => e.2)).sum

/-- Number of processes of `l` bearing pid `s`. -/
def pcountFor (s : String) (l : List Process) : Nat :=
  l.countP (fun p => p.pid == s)

/-- Fuel measure: total remaining burst in the queue (clamped at 0). -/
def totalRem (q : List (Process × Int)) : Nat :=
  (q.map (fun e => e.2.toNat)).sum

/-- Fuel measure: total burst of a process list (clamped at 0). -/
def totalBurst (l : List Process) : Nat :=
  (l.map (fun p => p.burst.toNat)).sum

/-- Start of the first slice of `tl` bearing pid `s`, if any. -/
def firstStartFor (s : String) : List Slice → Option Int
  | [] => none
  | sl :: tl => if sl.pid == s then some sl.start else firstStartFor s tl

/-- End of the last slice of `tl` bearing pid `s`, if any. -/
def lastEndFor (s : String) : List Slice → Option Int
  | [] => none
  | sl :: tl =>
    match lastEndFor s tl with
    | some e => some e
    | none => if sl.pid == s then some sl.«end» else none

/-- End of the last slice bearing pid `s`, defaulting to `d`. -/
def lastEndD (s : String) (d : Int) (tl : List Slice) : Int :=
  match lastEndFor s tl with
  | some e => e
  | none => d

/-- Name of the algorithm string produced by `runAlg`. -/
def algName : Alg → Int → String
  | Alg.FCFS, _ => "FCFS"
  | Alg.SJF, _ => "SJF (non-preemptive)"
  | Alg.PRIORITY, _ => "Priority (non-preemptive)"
  | Alg.RR, q => "Round Robin (q=" ++ toString q ++ ")"

/-- The four seed processes of the spec's concrete scenario. -/
def seedProcs : List Process :=
  [Process.mk "P1" 0 7 2, Process.mk "P2" 2 4 1,
   Process.mk "P3" 4 1 3, Process.mk "P4" 5 4 2]

/-- The Result FCFS computes on the seed input, with the averages left in
the exact shape the calculator produces (integer sum over dictionary values
divided by the clamped process count). -/
def seedFcfsResult : Result :=
  { algorithm := "FCFS"
    timeline := [Slice.mk "P1" 0 7, Slice.mk "P2" 7 11,
      Slice.mk "P3" 11 12, Slice.mk "P4" 12 16]
    waiting_times := [("P1", 0), ("P2", 5), ("P3", 7), ("P4", 7)]
    response_times := [("P1", 0), ("P2", 5), ("P3", 7), ("P4", 7)]
    turnaround_times := [("P1", 7), ("P2", 9), ("P3", 8), ("P4", 11)]
    avg_waiting := ((19 : Int) : ℚ) / ((4 : ℕ) : ℚ)
    avg_response := ((19 : Int) : ℚ) / ((4 : ℕ) : ℚ)
    avg_turnaround := ((35 : Int) : ℚ) / ((4 : ℕ) : ℚ) }

/-! ### Basic lemmas: stable sort, dictionaries, aggregation functions -/

theorem insertLe_perm {α : Type} (le : α → α → Bool) (a : α) (l : List α) :
    (insertLe le a l).Perm (a :: l) := by
  induction l with
  | nil => simp [insertLe]
  | cons b l ih =>
    simp only [insertLe]
    by_cases h : le a b
    · simp [h]
    · simp only [h, if_neg, Bool.false_eq_true, not_false_iff, if_false]
      exact (ih.cons b).trans (List.Perm.swap a b l)

theorem sortLe_perm {α : Type} (le : α → α → Bool) (l : List α) :
    (sortLe le l).Perm l := by
  induction l with
  | nil => simp [sortLe]
  | cons a l ih => exact (insertLe_perm le a (sortLe le l)).trans (ih.cons a)

theorem dictGet_nil {α : Type} (k : String) : dictGet ([] : List (String × α)) k = none := rfl

theorem find?_append_key {α : Type} (k : String) (v : α) (d : List (String × α))
    (h : d.any (fun kv => kv.1 == k) = false) :
    (d ++ [(k, v)]).find? (fun kv => kv.1 == k) = some (k, v) := by
  induction d with
  | nil => simp [List.find?]
  | cons kv d ih =>
    simp only [List.any_cons, Bool.or_eq_false_iff] at h
    simp only [List.cons_append, List.find?, h.1]
    exact ih h.2

theorem find?_map_key {α : Type} (k : String) (v : α) (d : List (String × α))
    (h : d.any (fun kv => kv.1 == k) = true) :
    (d.map (fun kv => if kv.1 == k then (k, v) else kv)).find?
      (fun kv => kv.1 == k) = some (k, v) := by
  induction d with
  | nil => simp at h
  | cons kv d ih =>
    by_cases hk : (kv.1 == k) = true
    · have hk1 : kv.1 = k := by simpa using hk
      simp [List.find?, hk1]
    · have hkf : (kv.1 == k) = false := by
        simp only [Bool.not_eq_true] at hk; exact hk
      simp only [List.any_cons, hkf, Bool.false_or] at h
      rw [List.map_cons, if_neg hk]
      simp only [List.find?, hkf]
      exact ih h

theorem find?_map_ne {α : Type} (k k' : String) (v : α) (d : List (String × α))
    (h : k' ≠ k) :
    (d.map (fun kv => if kv.1 == k then (k, v) else kv)).find?
      (fun kv => kv.1 == k') = d.find? (fun kv => kv.1 == k') := by
  have hne : (k == k') = false := beq_eq_false_iff_ne.mpr (fun e => h e.symm)
  induction d with
  | nil => rfl
  | cons kv d ih =>
    by_cases hk : (kv.1 == k) = true
    · have hk1 : kv.1 = k := by simpa using hk
      have hkv : (kv.1 == k') = false := by rw [hk1]; exact hne
      simp only [List.map_cons, if_pos hk, List.find?, hne, hkv]
      exact ih
    · simp only [List.map_cons, if_neg hk, List.find?]
      by_cases hk2 : (kv.1 == k') = true
      · simp [hk2]
      · have hk2f : (kv.1 == k') = false := by
          simp only [Bool.not_eq_true] at hk2; exact hk2
        simp only [hk2f]
        exact ih

theorem find?_append_ne {α : Type} (k k' : String) (v : α) (d : List (String × α))
    (h : k' ≠ k) :
    (d ++ [(k, v)]).find? (fun kv => kv.1 == k') = d.find? (fun kv => kv.1 == k') := by
  have hne : (k == k') = false := beq_eq_false_iff_ne.mpr (fun e => h e.symm)
  induction d with
  | nil => simp [List.find?, hne]
  | cons kv d ih =>
    simp only [List.cons_append, List.find?]
    by_cases hk2 : (kv.1 == k') = true
    · simp [hk2]
    · have hk2f : (kv.1 == k') = false := by
        simp only [Bool.not_eq_true] at hk2; exact hk2
      simp only [hk2f]
      exact ih

theorem dictGet_insert_self {α : Type} (d : List (String × α)) (k : String) (v : α) :
    dictGet (dictInsert d k v) k = some v := by
  simp only [dictGet, dictInsert]
  by_cases h : d.any (fun kv => kv.1 == k) = true
  · rw [if_pos h, find?_map_key k v d h]; rfl
  · have hf : d.any (fun kv => kv.1 == k) = false := by
      simp only [Bool.not_eq_true] at h; exact h
    rw [if_neg h, find?_append_key k v d hf]; rfl

theorem dictGet_insert_ne {α : Type} (d : List (String × α)) (k k' : String) (v : α)
    (h : k' ≠ k) : dictGet (dictInsert d k v) k' = dictGet d k' := by
  simp only [dictGet, dictInsert]
  by_cases ha : d.any (fun kv => kv.1 == k) = true
  · rw [if_pos ha, find?_map_ne k k' v d h]
  · rw [if_neg ha, find?_append_ne k k' v d h]

theorem durFor_append (s : String) (a b : List Slice) :
    durFor s (a ++ b) = durFor s a + durFor s b := by
  simp [durFor, List.filter_append]

theorem durFor_cons (s : String) (sl : Slice) (tl : List Slice) :
    durFor s (sl :: tl) =
      (if sl.pid = s then sl.«end» - sl.start else 0) + durFor s tl := by
  by_cases h : sl.pid = s
  · simp [durFor, List.filter_cons, h]
  · simp [durFor, List.filter_cons, h]

theorem countFor_append (s : String) (a b : List Slice) :
    countFor s (a ++ b) = countFor s a + countFor s b := by
  simp [countFor, List.countP_append]

theorem countFor_cons (s : String) (sl : Slice) (tl : List Slice) :
    countFor s (sl :: tl) = (if sl.pid = s then 1 else 0) + countFor s tl := by
  by_cases h : sl.pid = s
  · simp [countFor, List.countP_cons, h]; omega
  · simp [countFor, List.countP_cons, h]

theorem burstFor_append (s : String) (a b : List Process) :
    burstFor s (a ++ b) = burstFor s a + burstFor s b := by
  simp [burstFor, List.filter_append]

theorem burstFor_cons (s : String) (p : Process) (l : List Process) :
    burstFor s (p :: l) = (if p.pid = s then p.burst else 0) + burstFor s l := by
  by_cases h : p.pid = s
  · simp [burstFor, List.filter_cons, h]
  · simp [burstFor, List.filter_cons, h]

theorem remFor_append (s : String) (a b : List (Process × Int)) :
    remFor s (a ++ b) = remFor s a + remFor s b := by
  simp [remFor, List.filter_append]

theorem remFor_cons (s : String) (e : Process × Int) (q : List (Process × Int)) :
    remFor s (e :: q) = (if e.1.pid = s then e.2 else 0) + remFor s q := by
  by_cases h : e.1.pid = s
  · simp [remFor, List.filter_cons, h]
  · simp [remFor, List.filter_cons, h]

theorem remFor_map_burst (s : String) (l : List Process) :
    remFor s (l.map (fun p => (p, p.burst))) = burstFor s l := by
  induction l with
  | nil => rfl
  | cons p l ih => simp [remFor_cons, burstFor_cons, ih]

theorem pcountFor_append (s : String) (a b : List Process) :
    pcountFor s (a ++ b) = pcountFor s a + pcountFor s b := by
  simp [pcountFor, List.countP_append]

theorem pcountFor_cons (s : String) (p : Process) (l : List Process) :
    pcountFor s (p :: l) = (if p.pid = s then 1 else 0) + pcountFor s l := by
  by_cases h : p.pid = s
  · simp [pcountFor, List.countP_cons, h]; omega
  · simp [pcountFor, List.countP_cons, h]

theorem burstFor_perm (s : String) {a b : List Process} (h : a.Perm b) :
    burstFor s a = burstFor s b := by
  unfold burstFor
  exact ((h.filter (fun p => p.pid == s)).map (fun p => p.burst)).sum_eq

theorem pcountFor_perm (s : String) {a b : List Process} (h : a.Perm b) :
    pcountFor s a = pcountFor s b := by
  unfold pcountFor
  exact h.countP_eq (fun p => p.pid == s)

theorem totalRem_append (a b : List (Process × Int)) :
    totalRem (a ++ b) = totalRem a + totalRem b := by
  simp [totalRem]

theorem totalBurst_append (a b : List Process) :
    totalBurst (a ++ b) = totalBurst a + totalBurst b := by
  simp [totalBurst]

theorem totalRem_map_burst (l : List Process) :
    totalRem (l.map (fun p => (p, p.burst))) = totalBurst l := by
  induction l with
  | nil => rfl
  | cons p l ih =>
    simp only [List.map_cons, totalRem, totalBurst, List.sum_cons] at ih ⊢
    omega

theorem totalBurst_perm {a b : List Process} (h : a.Perm b) :
    totalBurst a = totalBurst b := by
  unfold totalBurst
  exact (h.map (fun p => p.burst.toNat)).sum_eq

theorem length_perm_sortLe {α : Type} (le : α → α → Bool) (l : List α) :
    (sortLe le l).length = l.length :=
  (sortLe_perm le l).length_eq

theorem mem_sortLe {α : Type} {le : α → α → Bool} {a : α} {l : List α} :
    a ∈ sortLe le l ↔ a ∈ l :=
  (sortLe_perm le l).mem_iff

theorem fold_get_not_mem {α : Type} (f : Process → α) (l : List Process)
    (d0 : List (String × α)) (k : String) (h : k ∉ l.map Process.pid) :
    dictGet (l.foldl (fun d p => dictInsert d p.pid (f p)) d0) k = dictGet d0 k := by
  induction l generalizing d0 with
  | nil => rfl
  | cons p l ih =>
    simp only [List.map_cons, List.mem_cons, not_or] at h
    rw [List.foldl_cons, ih (dictInsert d0 p.pid (f p)) h.2,
      dictGet_insert_ne d0 p.pid k (f p) h.1]

theorem fold_get_nodup {α : Type} (f : Process → α) (l : List Process)
    (d0 : List (String × α)) (p : Process)
    (hn : (l.map Process.pid).Nodup) (hp : p ∈ l) :
    dictGet (l.foldl (fun d q => dictInsert d q.pid (f q)) d0) p.pid = some (f p) := by
  induction l generalizing d0 with
  | nil => cases hp
  | cons q l ih =>
    simp only [List.map_cons, List.nodup_cons] at hn
    rcases List.mem_cons.mp hp with h | h
    · subst h
      rw [List.foldl_cons,
        fold_get_not_mem f l (dictInsert d0 p.pid (f p)) p.pid hn.1,
        dictGet_insert_self]
    · rw [List.foldl_cons]
      exact ih (dictInsert d0 q.pid (f q)) hn.2 h

theorem fold_get_mem_const {α : Type} (c : α) (l : List Process)
    (d0 : List (String × α)) (k : String) (h : k ∈ l.map Process.pid) :
    dictGet (l.foldl (fun d p => dictInsert d p.pid c) d0) k = some c := by
  induction l generalizing d0 with
  | nil => cases h
  | cons p l ih =>
    rw [List.foldl_cons]
    by_cases hk : k ∈ l.map Process.pid
    · exact ih (dictInsert d0 p.pid c) hk
    · have hpk : k = p.pid := by
        simp only [List.map_cons, List.mem_cons] at h
        tauto
      rw [fold_get_not_mem (fun _ => c) l _ k hk, hpk, dictGet_insert_self]

theorem fold_get_isSome {α : Type} (f : Process → α) (l : List Process)
    (d0 : List (String × α)) (k : String) :
    (dictGet (l.foldl (fun d p => dictInsert d p.pid (f p)) d0) k).isSome = true ↔
      (dictGet d0 k).isSome = true ∨ k ∈ l.map Process.pid := by
  induction l generalizing d0 with
  | nil => simp
  | cons p l ih =>
    rw [List.foldl_cons]
    constructor
    · intro h
      rcases (ih (dictInsert d0 p.pid (f p))).mp h with h1 | h1
      · by_cases hk : k = p.pid
        · right; simp [hk]
        · rw [dictGet_insert_ne d0 p.pid k (f p) hk] at h1
          left; exact h1
      · right; simp [h1]
    · intro h
      apply (ih (dictInsert d0 p.pid (f p))).mpr
      by_cases hk : k = p.pid
      · left; rw [hk, dictGet_insert_self]; rfl
      · rcases h with h1 | h1
        · left; rw [dictGet_insert_ne d0 p.pid k (f p) hk]; exact h1
        · simp only [List.map_cons, List.mem_cons] at h1
          rcases h1 with h1 | h1
          · exact absurd h1 hk
          · right; exact h1

theorem dictGet_insert_isSome {α : Type} (d : List (String × α)) (k k' : String)
    (v : α) (h : (dictGet d k').isSome = true) :
    (dictGet (dictInsert d k v) k').isSome = true := by
  by_cases hk : k' = k
  · rw [hk, dictGet_insert_self]; rfl
  · rw [dictGet_insert_ne d k k' v hk]; exact h

theorem scan_some (tl : List Slice) (fs : List (String × Option Int))
    (ft : List (String × Int))
    (h : ∀ sl ∈ tl, (dictGet fs sl.pid).isSome = true) :
    ∃ fs1 ft1, scanTimeline tl fs ft = some (fs1, ft1) ∧
      (∀ k, dictGet fs1 k = (dictGet fs k).map (fun cur =>
          match cur with
          | some x => some x
          | none => firstStartFor k tl)) ∧
      (∀ k, dictGet ft1 k = match lastEndFor k tl with
          | some e => some e
          | none => dictGet ft k) := by
  induction tl generalizing fs ft with
  | nil =>
    refine ⟨fs, ft, rfl, ?_, ?_⟩
    · intro k
      rcases hfk : dictGet fs k with _ | cur
      · rfl
      · rcases cur with _ | x <;> rfl
    · intro k
      rfl
  | cons sl rest ih =>
    rcases hcur : dictGet fs sl.pid with _ | cur
    · have := h sl (List.mem_cons_self sl rest)
      rw [hcur] at this
      cases this
    · have hfs1 : ∀ sl' ∈ rest,
          (dictGet (match cur with
            | none => dictInsert fs sl.pid (some sl.start)
            | some _ => fs) sl'.pid).isSome = true := by
        intro sl' hm
        have hh := h sl' (List.mem_cons_of_mem sl hm)
        rcases cur with _ | x
        · exact dictGet_insert_isSome fs sl.pid sl'.pid (some sl.start) hh
        · exact hh
      obtain ⟨fs1, ft1, hscan, hget1, hget2⟩ :=
        ih _ (dictInsert ft sl.pid sl.«end») hfs1
      refine ⟨fs1, ft1, ?_, ?_, ?_⟩
      · simp only [scanTimeline, hcur]
        exact hscan
      · intro k
        rw [hget1 k]
        by_cases hk : k = sl.pid
        · subst hk
          rcases cur with _ | x
          · rw [dictGet_insert_self, hcur]
            simp [firstStartFor]
          · rw [hcur]
            rfl
        · have hfs1k : dictGet (match cur with
              | none => dictInsert fs sl.pid (some sl.start)
              | some _ => fs) k = dictGet fs k := by
            rcases cur with _ | x
            · exact dictGet_insert_ne fs sl.pid k (some sl.start) hk
            · rfl
          rw [hfs1k]
          have hfsf : firstStartFor k (sl :: rest) = firstStartFor k rest := by
            have : (sl.pid == k) = false :=
              beq_eq_false_iff_ne.mpr (fun e => hk e.symm)
            simp [firstStartFor, this]
          rw [hfsf]
      · intro k
        rw [hget2 k]
        rcases hle : lastEndFor k rest with _ | e
        · simp only [lastEndFor, hle]
          by_cases hk : k = sl.pid
          · subst hk
            rw [dictGet_insert_self]
            simp
          · rw [dictGet_insert_ne ft sl.pid k sl.«end» hk]
            have : (sl.pid == k) = false :=
              beq_eq_false_iff_ne.mpr (fun e => hk e.symm)
            simp [this]
        · simp only [lastEndFor, hle]

theorem scan_none (tl : List Slice) (fs : List (String × Option Int))
    (ft : List (String × Int)) (sl0 : Slice) (hmem : sl0 ∈ tl)
    (hnone : dictGet fs sl0.pid = none) : scanTimeline tl fs ft = none := by
  induction tl generalizing fs ft with
  | nil => cases hmem
  | cons sl rest ih =>
    rcases hcur : dictGet fs sl.pid with _ | cur
    · simp only [scanTimeline, hcur]
    · rcases List.mem_cons.mp hmem with he | hm
      · subst he
        rw [hnone] at hcur
        cases hcur
      · have hne : sl0.pid ≠ sl.pid := by
          intro e
          rw [← e, hnone] at hcur
          cases hcur
        have hnone1 : dictGet (match cur with
            | none => dictInsert fs sl.pid (some sl.start)
            | some _ => fs) sl0.pid = none := by
          rcases cur with _ | x
          · rw [dictGet_insert_ne fs sl.pid sl0.pid (some sl.start) hne]
            exact hnone
          · exact hnone
        simp only [scanTimeline, hcur]
        exact ih _ _ hm hnone1

theorem cm_none (a : String) (procs : List Process) (tl : List Slice)
    (sl0 : Slice) (hmem : sl0 ∈ tl) (hout : ∀ p ∈ procs, p.pid ≠ sl0.pid) :
    compute_metrics a procs tl = none := by
  have hmemf : sl0.pid ∉ procs.map Process.pid := by
    intro hin
    obtain ⟨p, hp, he⟩ := List.mem_map.mp hin
    exact hout p hp he
  have hnone : dictGet
      (procs.foldl (fun d p => dictInsert d p.pid (none : Option Int)) [])
      sl0.pid = none := by
    rcases hget : dictGet
        (procs.foldl (fun d p => dictInsert d p.pid (none : Option Int)) [])
        sl0.pid with _ | v
    · exact hget
    · exfalso
      have : (dictGet (procs.foldl
          (fun d p => dictInsert d p.pid (none : Option Int)) []) sl0.pid).isSome
          = true := by rw [hget]; rfl
      rcases (fold_get_isSome (fun _ => (none : Option Int)) procs [] sl0.pid).mp
          this with h1 | h1
      · simp [dictGet_nil] at h1
      · exact hmemf h1
  simp only [compute_metrics]
  rw [scan_none tl _ _ sl0 hmem hnone]

theorem cm_some (a : String) (procs : List Process) (tl : List Slice)
    (hpid : ∀ sl ∈ tl, ∃ p ∈ procs, p.pid = sl.pid) :
    ∃ fs1 ft1, compute_metrics a procs tl = some (metricsFrom a procs tl fs1 ft1) ∧
      (∀ p ∈ procs, dictGet fs1 p.pid = some (firstStartFor p.pid tl)) ∧
      (∀ p ∈ procs, dictGet ft1 p.pid = some (lastEndD p.pid 0 tl)) := by
  have hsome0 : ∀ sl ∈ tl, (dictGet
      (procs.foldl (fun d p => dictInsert d p.pid (none : Option Int)) [])
      sl.pid).isSome = true := by
    intro sl hm
    apply (fold_get_isSome (fun _ => (none : Option Int)) procs [] sl.pid).mpr
    right
    obtain ⟨p, hp, he⟩ := hpid sl hm
    exact List.mem_map.mpr ⟨p, hp, he⟩
  obtain ⟨fs1, ft1, hscan, hget1, hget2⟩ := scan_some tl _ _ hsome0
  refine ⟨fs1, ft1, ?_, ?_, ?_⟩
  · simp only [compute_metrics]
    rw [hscan]
  · intro p hp
    rw [hget1 p.pid,
      fold_get_mem_const (none : Option Int) procs [] p.pid
        (List.mem_map.mpr ⟨p, hp, rfl⟩)]
    rfl
  · intro p hp
    rw [hget2 p.pid]
    rcases hle : lastEndFor p.pid tl with _ | e
    · rw [fold_get_mem_const (0 : Int) procs [] p.pid
        (List.mem_map.mpr ⟨p, hp, rfl⟩)]
      simp [lastEndD, hle]
    · simp [lastEndD, hle]

theorem metricsFrom_timeline (a : String) (procs : List Process) (tl : List Slice)
    (fs : List (String × Option Int)) (ft : List (String × Int)) :
    (metricsFrom a procs tl fs ft).timeline = tl := rfl

theorem metricsFrom_algorithm (a : String) (procs : List Process) (tl : List Slice)
    (fs : List (String × Option Int)) (ft : List (String × Int)) :
    (metricsFrom a procs tl fs ft).algorithm = a := rfl

theorem metricsFrom_get_waiting (a : String) (procs : List Process) (tl : List Slice)
    (fs : List (String × Option Int)) (ft : List (String × Int))
    (hn : (procs.map Process.pid).Nodup) (p : Process) (hp : p ∈ procs) :
    dictGet (metricsFrom a procs tl fs ft).waiting_times p.pid = some (wtOf ft p) :=
  fold_get_nodup (wtOf ft) procs [] p hn hp

theorem metricsFrom_get_turnaround (a : String) (procs : List Process)
    (tl : List Slice) (fs : List (String × Option Int)) (ft : List (String × Int))
    (hn : (procs.map Process.pid).Nodup) (p : Process) (hp : p ∈ procs) :
    dictGet (metricsFrom a procs tl fs ft).turnaround_times p.pid = some (ttOf ft p) :=
  fold_get_nodup (ttOf ft) procs [] p hn hp

theorem metricsFrom_get_response (a : String) (procs : List Process)
    (tl : List Slice) (fs : List (String × Option Int)) (ft : List (String × Int))
    (hn : (procs.map Process.pid).Nodup) (p : Process) (hp : p ∈ procs) :
    dictGet (metricsFrom a procs tl fs ft).response_times p.pid = some (rtOf fs p) :=
  fold_get_nodup (rtOf fs) procs [] p hn hp

theorem metricsFrom_keys_waiting (a : String) (procs : List Process)
    (tl : List Slice) (fs : List (String × Option Int)) (ft : List (String × Int))
    (k : String) :
    (dictGet (metricsFrom a procs tl fs ft).waiting_times k).isSome = true ↔
      k ∈ procs.map Process.pid := by
  simp only [metricsFrom]
  rw [fold_get_isSome (wtOf ft) procs [] k]
  simp [dictGet_nil]

theorem metricsFrom_keys_turnaround (a : String) (procs : List Process)
    (tl : List Slice) (fs : List (String × Option Int)) (ft : List (String × Int))
    (k : String) :
    (dictGet (metricsFrom a procs tl fs ft).turnaround_times k).isSome = true ↔
      k ∈ procs.map Process.pid := by
  simp only [metricsFrom]
  rw [fold_get_isSome (ttOf ft) procs [] k]
  simp [dictGet_nil]

theorem metricsFrom_keys_response (a : String) (procs : List Process)
    (tl : List Slice) (fs : List (String × Option Int)) (ft : List (String × Int))
    (k : String) :
    (dictGet (metricsFrom a procs tl fs ft).response_times k).isSome = true ↔
      k ∈ procs.map Process.pid := by
  simp only [metricsFrom]
  rw [fold_get_isSome (rtOf fs) procs [] k]
  simp [dictGet_nil]

theorem fcfsLoop_dur (s : String) (l : List Process) :
    ∀ t, durFor s (fcfsLoop t l) = burstFor s l := by
  induction l with
  | nil => intro t; rfl
  | cons p rest ih =>
    intro t
    simp only [fcfsLoop]
    rw [durFor_cons, burstFor_cons, ih]
    by_cases h : p.pid = s
    · simp only [h, if_pos]
      omega
    · simp [h]

theorem fcfsLoop_count (s : String) (l : List Process) :
    ∀ t, countFor s (fcfsLoop t l) = pcountFor s l := by
  induction l with
  | nil => intro t; rfl
  | cons p rest ih =>
    intro t
    simp only [fcfsLoop]
    rw [countFor_cons, pcountFor_cons, ih]

theorem fcfsLoop_ord (l : List Process) (hb : ∀ p ∈ l, 1 ≤ p.burst) :
    ∀ t, (∀ sl ∈ fcfsLoop t l, t ≤ sl.start ∧ sl.start < sl.«end» ∧
        ∃ p ∈ l, p.pid = sl.pid ∧ p.arrival ≤ sl.start ∧
          sl.«end» - sl.start = p.burst) ∧
      (fcfsLoop t l).Pairwise (fun a b => a.«end» ≤ b.start) := by
  induction l with
  | nil => intro t; exact ⟨fun sl h => absurd h (List.not_mem_nil sl), List.Pairwise.nil⟩
  | cons p rest ih =>
    intro t
    have hbp : 1 ≤ p.burst := hb p (List.mem_cons_self p rest)
    have hbr : ∀ q ∈ rest, 1 ≤ q.burst := fun q hq => hb q (List.mem_cons_of_mem p hq)
    have ih1 := (ih hbr (((if t < p.arrival then p.arrival else t)) + p.burst)).1
    have ih2 := (ih hbr (((if t < p.arrival then p.arrival else t)) + p.burst)).2
    simp only [fcfsLoop]
    constructor
    · intro sl hsl
      rcases List.mem_cons.mp hsl with he | hm
      · subst he
        refine ⟨by dsimp; split <;> omega, by dsimp; omega,
          p, List.mem_cons_self p rest, rfl, by dsimp; split <;> omega,
          by dsimp; omega⟩
      · obtain ⟨h1, h2, q, hq, h3⟩ := ih1 sl hm
        exact ⟨by split at h1 <;> omega, h2, q, List.mem_cons_of_mem p hq, h3⟩
    · rw [List.pairwise_cons]
      refine ⟨?_, ih2⟩
      intro sl hm
      have := (ih1 sl hm).1
      dsimp
      omega

theorem durFor_nil (s : String) : durFor s [] = 0 := rfl

theorem countFor_nil (s : String) : countFor s [] = 0 := rfl

theorem burstFor_nil (s : String) : burstFor s [] = 0 := rfl

theorem pcountFor_nil (s : String) : pcountFor s [] = 0 := rfl

theorem npLoop_dur (key : Process → Process → Bool) (s : String) :
    ∀ (fuel : Nat) (t : Int) (pending ready : List Process) (acc : List Slice)
      (tl : List Slice), npLoop key fuel t pending ready acc = some tl →
      durFor s tl = durFor s acc + burstFor s pending + burstFor s ready := by
  intro fuel
  induction fuel with
  | zero =>
    intro t pending ready acc tl h
    simp only [npLoop] at h
    split at h
    · rename_i hc
      simp only [Bool.and_eq_true, List.isEmpty_iff] at hc
      obtain ⟨hp, hr⟩ := hc
      subst hp; subst hr
      injection h with h
      subst h
      simp [burstFor]
    · cases h
  | succ fuel ih =>
    intro t pending ready acc tl h
    have hsplit := List.takeWhile_append_dropWhile (fun p => decide (p.arrival ≤ t)) pending
    simp only [npLoop] at h
    split at h
    · rename_i hsort hrest
      injection h with h
      subst h
      have hra : ready ++ pending.takeWhile (fun p => decide (p.arrival ≤ t)) = [] := by
        have hperm := sortLe_perm key
          (ready ++ pending.takeWhile (fun p => decide (p.arrival ≤ t)))
        rw [hsort] at hperm
        exact hperm.symm.eq_nil
      obtain ⟨hr, ht⟩ := List.append_eq_nil.mp hra
      have hp : pending = [] := by rw [← hsplit, ht, hrest]; rfl
      rw [hp, hr]
      simp [burstFor]
    · rename_i hsort hrest
      have hra : ready ++ pending.takeWhile (fun p => decide (p.arrival ≤ t)) = [] := by
        have hperm := sortLe_perm key
          (ready ++ pending.takeWhile (fun p => decide (p.arrival ≤ t)))
        rw [hsort] at hperm
        exact hperm.symm.eq_nil
      obtain ⟨hr, ht⟩ := List.append_eq_nil.mp hra
      rw [ht, List.nil_append] at hsplit
      have := ih _ _ _ _ _ h
      rw [hsplit] at this
      rw [this, hr]
    · rename_i p others hsort
      have hperm := sortLe_perm key
        (ready ++ pending.takeWhile (fun p => decide (p.arrival ≤ t)))
      rw [hsort] at hperm
      have hb : burstFor s (p :: others) =
          burstFor s ready +
          burstFor s (pending.takeWhile (fun p => decide (p.arrival ≤ t))) := by
        rw [burstFor_perm s hperm, burstFor_append]
      rw [burstFor_cons] at hb
      have hpend : burstFor s pending =
          burstFor s (pending.takeWhile (fun p => decide (p.arrival ≤ t))) +
          burstFor s (pending.dropWhile (fun p => decide (p.arrival ≤ t))) := by
        rw [← burstFor_append, hsplit]
      have := ih _ _ _ _ _ h
      rw [durFor_append, durFor_cons, durFor_nil] at this
      dsimp only at this
      rw [this, hpend]
      by_cases hps : p.pid = s
      · simp only [hps, if_pos] at hb ⊢
        omega
      · simp only [hps, if_neg, not_false_iff, if_false] at hb ⊢
        omega

theorem npLoop_count (key : Process → Process → Bool) (s : String) :
    ∀ (fuel : Nat) (t : Int) (pending ready : List Process) (acc : List Slice)
      (tl : List Slice), npLoop key fuel t pending ready acc = some tl →
      countFor s tl = countFor s acc + pcountFor s pending + pcountFor s ready := by
  intro fuel
  induction fuel with
  | zero =>
    intro t pending ready acc tl h
    simp only [npLoop] at h
    split at h
    · rename_i hc
      simp only [Bool.and_eq_true, List.isEmpty_iff] at hc
      obtain ⟨hp, hr⟩ := hc
      subst hp; subst hr
      injection h with h
      subst h
      simp [pcountFor]
    · cases h
  | succ fuel ih =>
    intro t pending ready acc tl h
    have hsplit := List.takeWhile_append_dropWhile (fun p => decide (p.arrival ≤ t)) pending
    simp only [npLoop] at h
    split at h
    · rename_i hsort hrest
      injection h with h
      subst h
      have hra : ready ++ pending.takeWhile (fun p => decide (p.arrival ≤ t)) = [] := by
        have hperm := sortLe_perm key
          (ready ++ pending.takeWhile (fun p => decide (p.arrival ≤ t)))
        rw [hsort] at hperm
        exact hperm.symm.eq_nil
      obtain ⟨hr, ht⟩ := List.append_eq_nil.mp hra
      have hp : pending = [] := by rw [← hsplit, ht, hrest]; rfl
      rw [hp, hr]
      simp [pcountFor]
    · rename_i hsort hrest
      have hra : ready ++ pending.takeWhile (fun p => decide (p.arrival ≤ t)) = [] := by
        have hperm := sortLe_perm key
          (ready ++ pending.takeWhile (fun p => decide (p.arrival ≤ t)))
        rw [hsort] at hperm
        exact hperm.symm.eq_nil
      obtain ⟨hr, ht⟩ := List.append_eq_nil.mp hra
      rw [ht, List.nil_append] at hsplit
      have := ih _ _ _ _ _ h
      rw [hsplit] at this
      rw [this, hr]
    · rename_i p others hsort
      have hperm := sortLe_perm key
        (ready ++ pending.takeWhile (fun p => decide (p.arrival ≤ t)))
      rw [hsort] at hperm
      have hb : pcountFor s (p :: others) =
          pcountFor s ready +
          pcountFor s (pending.takeWhile (fun p => decide (p.arrival ≤ t))) := by
        rw [pcountFor_perm s hperm, pcountFor_append]
      rw [pcountFor_cons] at hb
      have hpend : pcountFor s pending =
          pcountFor s (pending.takeWhile (fun p => decide (p.arrival ≤ t))) +
          pcountFor s (pending.dropWhile (fun p => decide (p.arrival ≤ t))) := by
        rw [← pcountFor_append, hsplit]
      have := ih _ _ _ _ _ h
      rw [countFor_append, countFor_cons, countFor_nil] at this
      dsimp only at this
      rw [this, hpend]
      by_cases hps : p.pid = s
      · simp only [hps, if_pos] at hb ⊢
        omega
      · simp only [hps, if_neg, not_false_iff, if_false] at hb ⊢
        omega

theorem dropWhile_head_not {α : Type} (p : α → Bool) :
    ∀ (l : List α) (x : α) (xs : List α), l.dropWhile p = x :: xs → p x = false := by
  intro l
  induction l with
  | nil => intro x xs h; cases h
  | cons a l ih =>
    intro x xs h
    by_cases hp : p a = true
    · rw [List.dropWhile_cons_of_pos hp] at h
      exact ih x xs h
    · rw [List.dropWhile_cons_of_neg hp] at h
      injection h with h1 h2
      subst h1
      simpa using hp

theorem npLoop_ord (key : Process → Process → Bool) :
    ∀ (fuel : Nat) (t : Int) (pending ready : List Process) (acc : List Slice)
      (tl : List Slice), npLoop key fuel t pending ready acc = some tl →
      (∀ p ∈ pending, 1 ≤ p.burst) → (∀ p ∈ ready, 1 ≤ p.burst) →
      (∀ p ∈ ready, p.arrival ≤ t) →
      (∀ sl ∈ acc, sl.«end» ≤ t) →
      acc.Pairwise (fun a b => a.«end» ≤ b.start) →
      (∀ sl ∈ acc, sl.start < sl.«end») →
      tl.Pairwise (fun a b => a.«end» ≤ b.start) ∧
        (∀ sl ∈ tl, sl.start < sl.«end») ∧
        (∀ sl ∈ tl, sl ∈ acc ∨ ∃ p, (p ∈ pending ∨ p ∈ ready) ∧ p.pid = sl.pid ∧
          p.arrival ≤ sl.start) := by
  intro fuel
  induction fuel with
  | zero =>
    intro t pending ready acc tl h _ _ _ _ hpw hpos
    simp only [npLoop] at h
    split at h
    · injection h with h
      subst h
      exact ⟨hpw, hpos, fun sl hsl => Or.inl hsl⟩
    · cases h
  | succ fuel ih =>
    intro t pending ready acc tl h hbp hbr har hend hpw hpos
    simp only [npLoop] at h
    split at h
    · injection h with h
      subst h
      exact ⟨hpw, hpos, fun sl hsl => Or.inl hsl⟩
    · rename_i hsort hrest
      have hra : ready ++ pending.takeWhile (fun p => decide (p.arrival ≤ t)) = [] := by
        have hperm := sortLe_perm key
          (ready ++ pending.takeWhile (fun p => decide (p.arrival ≤ t)))
        rw [hsort] at hperm
        exact hperm.symm.eq_nil
      obtain ⟨hr, ht⟩ := List.append_eq_nil.mp hra
      rename_i nxt tail
      have hnxt : t < nxt.arrival := by
        have := dropWhile_head_not (fun p => decide (p.arrival ≤ t)) pending nxt tail hrest
        simpa using this
      have hsub : ∀ p ∈ pending.dropWhile (fun p => decide (p.arrival ≤ t)), p ∈ pending :=
        fun p hp => (List.dropWhile_sublist (fun (p : Process) => decide (p.arrival ≤ t))).mem hp
      obtain ⟨c1, c2, c3⟩ := ih nxt.arrival _ [] acc tl h
        (fun p hp => hbp p (hsub p hp))
        (fun p hp => absurd hp (List.not_mem_nil p))
        (fun p hp => absurd hp (List.not_mem_nil p))
        (fun sl hsl => le_trans (hend sl hsl) (le_of_lt hnxt))
        hpw hpos
      refine ⟨c1, c2, fun sl hsl => ?_⟩
      rcases c3 sl hsl with hin | ⟨p, hp, h2, h3⟩
      · exact Or.inl hin
      · rcases hp with hp | hp
        · exact Or.inr ⟨p, Or.inl (hsub p hp), h2, h3⟩
        · exact absurd hp (List.not_mem_nil p)
    · rename_i p others hsort
      have hperm := sortLe_perm key
        (ready ++ pending.takeWhile (fun p => decide (p.arrival ≤ t)))
      rw [hsort] at hperm
      have hmem : ∀ q ∈ p :: others, q ∈ ready ∨
          q ∈ pending.takeWhile (fun p => decide (p.arrival ≤ t)) :=
        fun q hq => List.mem_append.mp (hperm.mem_iff.mp hq)
      have htakesub : ∀ q ∈ pending.takeWhile (fun p => decide (p.arrival ≤ t)),
          q ∈ pending :=
        fun q hq => (List.takeWhile_sublist (fun (p : Process) => decide (p.arrival ≤ t))).mem hq
      have htakearr : ∀ q ∈ pending.takeWhile (fun p => decide (p.arrival ≤ t)),
          q.arrival ≤ t := by
        intro q hq
        have := List.mem_takeWhile_imp hq
        simpa using this
      have hparr : p.arrival ≤ t := by
        rcases hmem p (List.mem_cons_self p others) with hp | hp
        · exact har p hp
        · exact htakearr p hp
      have hpburst : 1 ≤ p.burst := by
        rcases hmem p (List.mem_cons_self p others) with hp | hp
        · exact hbr p hp
        · exact hbp p (htakesub p hp)
      have hsub : ∀ q ∈ pending.dropWhile (fun p => decide (p.arrival ≤ t)), q ∈ pending :=
        fun q hq => (List.dropWhile_sublist (fun (p : Process) => decide (p.arrival ≤ t))).mem hq
      obtain ⟨c1, c2, c3⟩ := ih (t + p.burst) _ others
        (acc ++ [Slice.mk p.pid t (t + p.burst)]) tl h
        (fun q hq => hbp q (hsub q hq))
        (fun q hq => by
          rcases hmem q (List.mem_cons_of_mem p hq) with h1 | h1
          · exact hbr q h1
          · exact hbp q (htakesub q h1))
        (fun q hq => by
          rcases hmem q (List.mem_cons_of_mem p hq) with h1 | h1
          · exact le_trans (har q h1) (by omega)
          · exact le_trans (htakearr q h1) (by omega))
        (fun sl hsl => by
          rcases List.mem_append.mp hsl with h1 | h1
          · exact le_trans (hend sl h1) (by omega)
          · rcases List.mem_singleton.mp h1 with rfl
            dsimp
            omega)
        (by
          rw [List.pairwise_append]
          refine ⟨hpw, List.pairwise_singleton _ _, ?_⟩
          intro a ha b hb
          rcases List.mem_singleton.mp hb with rfl
          dsimp
          exact hend a ha)
        (fun sl hsl => by
          rcases List.mem_append.mp hsl with h1 | h1
          · exact hpos sl h1
          · rcases List.mem_singleton.mp h1 with rfl
            dsimp
            omega)
      refine ⟨c1, c2, fun sl hsl => ?_⟩
      rcases c3 sl hsl with hin | ⟨q, hq, h2, h3⟩
      · rcases List.mem_append.mp hin with h1 | h1
        · exact Or.inl h1
        · rcases List.mem_singleton.mp h1 with rfl
          refine Or.inr ⟨p, ?_, rfl, by dsimp; exact hparr⟩
          rcases hmem p (List.mem_cons_self p others) with h2 | h2
          · exact Or.inr h2
          · exact Or.inl (htakesub p h2)
      · rcases hq with hq | hq
        · exact Or.inr ⟨q, Or.inl (hsub q hq), h2, h3⟩
        · rcases hmem q (List.mem_cons_of_mem p hq) with h1 | h1
          · exact Or.inr ⟨q, Or.inr h1, h2, h3⟩
          · exact Or.inr ⟨q, Or.inl (htakesub q h1), h2, h3⟩

theorem npLoop_some (key : Process → Process → Bool) :
    ∀ (fuel : Nat) (t : Int) (pending ready : List Process) (acc : List Slice),
      2 * (pending.length + ready.length) + 1 ≤ fuel →
      ∃ tl, npLoop key fuel t pending ready acc = some tl := by
  intro fuel
  induction fuel using Nat.strong_induction_on with
  | _ fuel ih =>
    rcases fuel with _ | fuel
    · intro t pending ready acc hfuel
      exact absurd hfuel (by omega)
    · intro t pending ready acc hfuel
      have hlen := congrArg List.length
        (List.takeWhile_append_dropWhile (fun (p : Process) => decide (p.arrival ≤ t)) pending)
      rw [List.length_append] at hlen
      simp only [npLoop]
      rcases hsort : sortLe key
          (ready ++ pending.takeWhile (fun p => decide (p.arrival ≤ t))) with _ | ⟨p, others⟩
      · have hra : ready ++ pending.takeWhile (fun p => decide (p.arrival ≤ t)) = [] := by
          have hperm := sortLe_perm key
            (ready ++ pending.takeWhile (fun p => decide (p.arrival ≤ t)))
          rw [hsort] at hperm
          exact hperm.symm.eq_nil
        obtain ⟨hr, ht⟩ := List.append_eq_nil.mp hra
        rcases hrest : pending.dropWhile (fun p => decide (p.arrival ≤ t)) with _ | ⟨nxt, tail⟩
        · rw [hrest]
          exact ⟨acc, rfl⟩
        · rw [hrest]
          have hlt : (pending.takeWhile (fun p => decide (p.arrival ≤ t))).length = 0 := by
            rw [ht]; rfl
          have hld : (pending.dropWhile (fun p => decide (p.arrival ≤ t))).length
              = tail.length + 1 := by rw [hrest]; simp
          rcases fuel with _ | fuel
          · exact absurd hfuel (by omega)
          · simp only [npLoop]
            have htw : (nxt :: tail).takeWhile
                (fun p => decide (p.arrival ≤ nxt.arrival)) =
                nxt :: tail.takeWhile (fun p => decide (p.arrival ≤ nxt.arrival)) := by
              rw [List.takeWhile_cons_of_pos]
              simp
            have hlen2 := congrArg List.length
              (List.takeWhile_append_dropWhile
                (fun (p : Process) => decide (p.arrival ≤ nxt.arrival)) (nxt :: tail))
            rw [List.length_append] at hlen2
            rcases hsort2 : sortLe key
                ([] ++ (nxt :: tail).takeWhile
                  (fun p => decide (p.arrival ≤ nxt.arrival))) with _ | ⟨p2, others2⟩
            · exfalso
              have e2 := length_perm_sortLe key
                ([] ++ (nxt :: tail).takeWhile
                  (fun p => decide (p.arrival ≤ nxt.arrival)))
              rw [hsort2] at e2
              rw [htw] at e2
              simp at e2
            · have e2 := length_perm_sortLe key
                ([] ++ (nxt :: tail).takeWhile
                  (fun p => decide (p.arrival ≤ nxt.arrival)))
              rw [hsort2, htw] at e2
              simp only [List.nil_append, List.length_cons] at e2
              rw [htw] at hlen2
              simp only [List.length_cons] at hlen2
              obtain ⟨tl, htl⟩ := ih fuel (by omega) (nxt.arrival + p2.burst)
                ((nxt :: tail).dropWhile (fun p => decide (p.arrival ≤ nxt.arrival)))
                others2
                (acc ++ [Slice.mk p2.pid nxt.arrival (nxt.arrival + p2.burst)])
                (by omega)
              exact ⟨tl, htl⟩
      · have e2 := length_perm_sortLe key
          (ready ++ pending.takeWhile (fun p => decide (p.arrival ≤ t)))
        rw [hsort] at e2
        simp only [List.length_append, List.length_cons] at e2
        obtain ⟨tl, htl⟩ := ih fuel (by omega) (t + p.burst)
          (pending.dropWhile (fun p => decide (p.arrival ≤ t))) others
          (acc ++ [Slice.mk p.pid t (t + p.burst)]) (by omega)
        exact ⟨tl, htl⟩

theorem remFor_nil (s : String) : remFor s [] = 0 := rfl

theorem rrLoop_dur (quantum : Int) (s : String) :
    ∀ (fuel : Nat) (t : Int) (pending : List Process)
      (queue : List (Process × Int)) (acc : List Slice) (tl : List Slice),
      rrLoop quantum fuel t pending queue acc = some tl →
      durFor s tl = durFor s acc + burstFor s pending + remFor s queue := by
  intro fuel
  induction fuel with
  | zero =>
    intro t pending queue acc tl h
    simp only [rrLoop] at h
    split at h
    · rename_i hc
      simp only [Bool.and_eq_true, List.isEmpty_iff] at hc
      obtain ⟨hp, hq⟩ := hc
      subst hp; subst hq
      injection h with h
      subst h
      simp [burstFor, remFor]
    · cases h
  | succ fuel ih =>
    intro t pending queue acc tl h
    have hsplit := List.takeWhile_append_dropWhile (fun (p : Process) => decide (p.arrival ≤ t)) pending
    have hpend : burstFor s pending =
        burstFor s (pending.takeWhile (fun p => decide (p.arrival ≤ t))) +
        burstFor s (pending.dropWhile (fun p => decide (p.arrival ≤ t))) := by
      rw [← burstFor_append, hsplit]
    simp only [rrLoop] at h
    split at h
    · rename_i hq hrest
      injection h with h
      subst h
      obtain ⟨h1, h2⟩ := List.append_eq_nil.mp hq
      have h3 : pending.takeWhile (fun p => decide (p.arrival ≤ t)) = [] :=
        List.map_eq_nil_iff.mp h2
      rw [h1, hpend, h3, hrest]
      simp [burstFor, remFor]
    · rename_i hq hrest
      obtain ⟨h1, h2⟩ := List.append_eq_nil.mp hq
      have h3 : pending.takeWhile (fun p => decide (p.arrival ≤ t)) = [] :=
        List.map_eq_nil_iff.mp h2
      have := ih _ _ _ _ _ h
      rw [this, h1, hpend, h3]
      simp [burstFor, remFor]
    · rename_i p rem qtl hq
      have hqrem : remFor s queue +
          burstFor s (pending.takeWhile (fun p => decide (p.arrival ≤ t))) =
          (if p.pid = s then rem else 0) + remFor s qtl := by
        have := congrArg (remFor s) hq
        rw [remFor_append, remFor_map_burst, remFor_cons] at this
        exact this
      have hrsplit := List.takeWhile_append_dropWhile
        (fun (x : Process) => decide (x.arrival ≤ t + min quantum rem))
        (pending.dropWhile (fun p => decide (p.arrival ≤ t)))
      have hrest1 : burstFor s (pending.dropWhile (fun p => decide (p.arrival ≤ t))) =
          burstFor s ((pending.dropWhile (fun p => decide (p.arrival ≤ t))).takeWhile
            (fun x => decide (x.arrival ≤ t + min quantum rem))) +
          burstFor s ((pending.dropWhile (fun p => decide (p.arrival ≤ t))).dropWhile
            (fun x => decide (x.arrival ≤ t + min quantum rem))) := by
        rw [← burstFor_append, hrsplit]
      have hur : min quantum rem ≤ rem := min_le_right quantum rem
      by_cases hreq : 0 < rem - min quantum rem
      · rw [if_pos hreq] at h
        have := ih _ _ _ _ _ h
        rw [durFor_append, durFor_cons, durFor_nil] at this
        rw [remFor_append, remFor_append, remFor_map_burst, remFor_cons, remFor_nil] at this
        dsimp only at this
        rw [this, hpend, hrest1]
        by_cases hps : p.pid = s
        · simp only [hps, if_pos] at hqrem ⊢
          omega
        · simp only [hps, if_neg, not_false_iff, if_false] at hqrem ⊢
          omega
      · rw [if_neg hreq] at h
        have := ih _ _ _ _ _ h
        rw [durFor_append, durFor_cons, durFor_nil] at this
        rw [remFor_append, remFor_map_burst] at this
        dsimp only at this
        rw [this, hpend, hrest1]
        by_cases hps : p.pid = s
        · simp only [hps, if_pos] at hqrem ⊢
          omega
        · simp only [hps, if_neg, not_false_iff, if_false] at hqrem ⊢
          omega

theorem rrLoop_ord (quantum : Int) (hquant : 1 ≤ quantum) :
    ∀ (fuel : Nat) (t : Int) (pending : List Process)
      (queue : List (Process × Int)) (acc : List Slice) (tl : List Slice),
      rrLoop quantum fuel t pending queue acc = some tl →
      (∀ p ∈ pending, 1 ≤ p.burst) →
      (∀ e ∈ queue, 1 ≤ e.2) →
      (∀ e ∈ queue, e.1.arrival ≤ t) →
      (∀ sl ∈ acc, sl.«end» ≤ t) →
      acc.Pairwise (fun a b => a.«end» ≤ b.start) →
      (∀ sl ∈ acc, sl.start < sl.«end») →
      tl.Pairwise (fun a b => a.«end» ≤ b.start) ∧
        (∀ sl ∈ tl, sl.start < sl.«end») ∧
        (∀ sl ∈ tl, sl ∈ acc ∨ ∃ p, (p ∈ pending ∨ ∃ r, (p, r) ∈ queue) ∧
          p.pid = sl.pid ∧ p.arrival ≤ sl.start) := by
  intro fuel
  induction fuel with
  | zero =>
    intro t pending queue acc tl h _ _ _ _ hpw hpos
    simp only [rrLoop] at h
    split at h
    · injection h with h
      subst h
      exact ⟨hpw, hpos, fun sl hsl => Or.inl hsl⟩
    · cases h
  | succ fuel ih =>
    intro t pending queue acc tl h hbp hqr hqa hend hpw hpos
    simp only [rrLoop] at h
    split at h
    · injection h with h
      subst h
      exact ⟨hpw, hpos, fun sl hsl => Or.inl hsl⟩
    · rename_i hq hrest
      obtain ⟨h1, h2⟩ := List.append_eq_nil.mp hq
      have h3 : pending.takeWhile (fun p => decide (p.arrival ≤ t)) = [] :=
        List.map_eq_nil_iff.mp h2
      rename_i nxt tail
      have hnxt : t < nxt.arrival := by
        have := dropWhile_head_not (fun p => decide (p.arrival ≤ t)) pending nxt tail hrest
        simpa using this
      have hsub : ∀ q ∈ pending.dropWhile (fun p => decide (p.arrival ≤ t)), q ∈ pending :=
        fun q hq2 => (List.dropWhile_sublist (fun (p : Process) => decide (p.arrival ≤ t))).mem hq2
      obtain ⟨c1, c2, c3⟩ := ih nxt.arrival _ [] acc tl h
        (fun q hq2 => hbp q (hsub q hq2))
        (fun e he => absurd he (List.not_mem_nil e))
        (fun e he => absurd he (List.not_mem_nil e))
        (fun sl hsl => le_trans (hend sl hsl) (le_of_lt hnxt))
        hpw hpos
      refine ⟨c1, c2, fun sl hsl => ?_⟩
      rcases c3 sl hsl with hin | ⟨q, hq2, h4, h5⟩
      · exact Or.inl hin
      · rcases hq2 with hq2 | ⟨r, hr⟩
        · exact Or.inr ⟨q, Or.inl (hsub q hq2), h4, h5⟩
        · exact absurd hr (List.not_mem_nil (q, r))
    · rename_i p rem qtl hq
      have htakearr : ∀ q ∈ pending.takeWhile (fun p => decide (p.arrival ≤ t)),
          q.arrival ≤ t := by
        intro q hq2
        have := List.mem_takeWhile_imp hq2
        simpa using this
      have htakesub : ∀ q ∈ pending.takeWhile (fun p => decide (p.arrival ≤ t)),
          q ∈ pending :=
        fun q hq2 => (List.takeWhile_sublist (fun (p : Process) => decide (p.arrival ≤ t))).mem hq2
      have hq1mem : ∀ e, e ∈ ((p, rem) :: qtl) → e ∈ queue ∨
          ∃ x, x ∈ pending.takeWhile (fun p => decide (p.arrival ≤ t)) ∧
            e = (x, x.burst) := by
        intro e he
        rw [← hq] at he
        rcases List.mem_append.mp he with h1 | h1
        · exact Or.inl h1
        · obtain ⟨x, hx, hxe⟩ := List.mem_map.mp h1
          exact Or.inr ⟨x, hx, hxe.symm⟩
      have hq1rem : ∀ e ∈ ((p, rem) :: qtl), 1 ≤ e.2 := by
        intro e he
        rcases hq1mem e he with h1 | ⟨x, hx, rfl⟩
        · exact hqr e h1
        · exact hbp x (htakesub x hx)
      have hq1arr : ∀ e ∈ ((p, rem) :: qtl), e.1.arrival ≤ t := by
        intro e he
        rcases hq1mem e he with h1 | ⟨x, hx, rfl⟩
        · exact hqa e h1
        · exact htakearr x hx
      have hq1src : ∀ e ∈ ((p, rem) :: qtl), e.1 ∈ pending ∨ ∃ r, (e.1, r) ∈ queue := by
        intro e he
        rcases hq1mem e he with h1 | ⟨x, hx, rfl⟩
        · exact Or.inr ⟨e.2, h1⟩
        · exact Or.inl (htakesub x hx)
      have hprem : 1 ≤ rem := hq1rem (p, rem) (List.mem_cons_self _ _)
      have hparr : p.arrival ≤ t := hq1arr (p, rem) (List.mem_cons_self _ _)
      have huse : 1 ≤ min quantum rem := le_min hquant hprem
      have husele : min quantum rem ≤ rem := min_le_right quantum rem
      have hdsub : ∀ q ∈ (pending.dropWhile (fun p => decide (p.arrival ≤ t))),
          q ∈ pending :=
        fun q hq2 => (List.dropWhile_sublist (fun (p : Process) => decide (p.arrival ≤ t))).mem hq2
      have htake2arr : ∀ q ∈ (pending.dropWhile (fun p => decide (p.arrival ≤ t))).takeWhile
          (fun x => decide (x.arrival ≤ t + min quantum rem)),
          q.arrival ≤ t + min quantum rem := by
        intro q hq2
        have := List.mem_takeWhile_imp hq2
        simpa using this
      have htake2sub : ∀ q ∈ (pending.dropWhile (fun p => decide (p.arrival ≤ t))).takeWhile
          (fun x => decide (x.arrival ≤ t + min quantum rem)),
          q ∈ pending := by
        intro q hq2
        exact hdsub q ((List.takeWhile_sublist
          (fun (x : Process) => decide (x.arrival ≤ t + min quantum rem))).mem hq2)
      have hdrop2sub : ∀ q ∈ (pending.dropWhile (fun p => decide (p.arrival ≤ t))).dropWhile
          (fun x => decide (x.arrival ≤ t + min quantum rem)),
          q ∈ pending := by
        intro q hq2
        exact hdsub q ((List.dropWhile_sublist
          (fun (x : Process) => decide (x.arrival ≤ t + min quantum rem))).mem hq2)
      -- invariants for the recursive state, shared by both requeue cases
      have hnewq : ∀ (qnew : List (Process × Int)),
          (∀ e ∈ qnew, e ∈ qtl ∨
            (∃ x, x ∈ (pending.dropWhile (fun p => decide (p.arrival ≤ t))).takeWhile
              (fun x => decide (x.arrival ≤ t + min quantum rem)) ∧ e = (x, x.burst)) ∨
            (0 < rem - min quantum rem ∧ e = (p, rem - min quantum rem))) →
          (∀ e ∈ qnew, 1 ≤ e.2) ∧ (∀ e ∈ qnew, e.1.arrival ≤ t + min quantum rem) ∧
          (∀ e ∈ qnew, e.1 ∈ (pending.dropWhile (fun p => decide (p.arrival ≤ t))).dropWhile
              (fun x => decide (x.arrival ≤ t + min quantum rem)) ∨
            (e.1 ∈ pending ∨ ∃ r, (e.1, r) ∈ queue)) := by
        intro qnew hdesc
        refine ⟨?_, ?_, ?_⟩
        · intro e he
          rcases hdesc e he with h1 | ⟨x, hx, rfl⟩ | ⟨hpos2, rfl⟩
          · exact hq1rem e (List.mem_cons_of_mem _ h1)
          · exact hbp x (htake2sub x hx)
          · exact hpos2
        · intro e he
          rcases hdesc e he with h1 | ⟨x, hx, rfl⟩ | ⟨hpos2, rfl⟩
          · exact le_trans (hq1arr e (List.mem_cons_of_mem _ h1)) (by omega)
          · exact htake2arr x hx
          · exact le_trans hparr (by omega)
        · intro e he
          rcases hdesc e he with h1 | ⟨x, hx, rfl⟩ | ⟨hpos2, rfl⟩
          · exact Or.inr (hq1src e (List.mem_cons_of_mem _ h1))
          · exact Or.inr (Or.inl (htake2sub x hx))
          · exact Or.inr (hq1src (p, rem) (List.mem_cons_self _ _))
      have haccend : ∀ sl ∈ acc ++ [Slice.mk p.pid t (t + min quantum rem)],
          sl.«end» ≤ t + min quantum rem := by
        intro sl hsl
        rcases List.mem_append.mp hsl with h1 | h1
        · exact le_trans (hend sl h1) (by omega)
        · rcases List.mem_singleton.mp h1 with rfl
          dsimp
          omega
      have haccpw : (acc ++ [Slice.mk p.pid t (t + min quantum rem)]).Pairwise
          (fun a b => a.«end» ≤ b.start) := by
        rw [List.pairwise_append]
        refine ⟨hpw, List.pairwise_singleton _ _, ?_⟩
        intro a ha b hb
        rcases List.mem_singleton.mp hb with rfl
        dsimp
        exact hend a ha
      have haccpos : ∀ sl ∈ acc ++ [Slice.mk p.pid t (t + min quantum rem)],
          sl.start < sl.«end» := by
        intro sl hsl
        rcases List.mem_append.mp hsl with h1 | h1
        · exact hpos sl h1
        · rcases List.mem_singleton.mp h1 with rfl
          dsimp
          omega
      have hfinish : ∀ (qnew : List (Process × Int)),
          rrLoop quantum fuel (t + min quantum rem)
            ((pending.dropWhile (fun p => decide (p.arrival ≤ t))).dropWhile
              (fun x => decide (x.arrival ≤ t + min quantum rem))) qnew
            (acc ++ [Slice.mk p.pid t (t + min quantum rem)]) = some tl →
          (∀ e ∈ qnew, e ∈ qtl ∨
            (∃ x, x ∈ (pending.dropWhile (fun p => decide (p.arrival ≤ t))).takeWhile
              (fun x => decide (x.arrival ≤ t + min quantum rem)) ∧ e = (x, x.burst)) ∨
            (0 < rem - min quantum rem ∧ e = (p, rem - min quantum rem))) →
          tl.Pairwise (fun a b => a.«end» ≤ b.start) ∧
            (∀ sl ∈ tl, sl.start < sl.«end») ∧
            (∀ sl ∈ tl, sl ∈ acc ∨ ∃ p2, (p2 ∈ pending ∨ ∃ r, (p2, r) ∈ queue) ∧
              p2.pid = sl.pid ∧ p2.arrival ≤ sl.start) := by
        intro qnew hrec hdesc
        obtain ⟨hr1, hr2, hr3⟩ := hnewq qnew hdesc
        obtain ⟨c1, c2, c3⟩ := ih (t + min quantum rem) _ qnew _ tl hrec
          (fun q hq2 => hbp q (hdrop2sub q hq2))
          hr1 hr2
          haccend haccpw haccpos
        refine ⟨c1, c2, fun sl hsl => ?_⟩
        rcases c3 sl hsl with hin | ⟨q, hq2, h4, h5⟩
        · rcases List.mem_append.mp hin with h1 | h1
          · exact Or.inl h1
          · rcases List.mem_singleton.mp h1 with rfl
            refine Or.inr ⟨p, ?_, rfl, by dsimp; exact hparr⟩
            exact hq1src (p, rem) (List.mem_cons_self _ _)
        · rcases hq2 with hq2 | ⟨r, hr⟩
          · exact Or.inr ⟨q, Or.inl (hdrop2sub q hq2), h4, h5⟩
          · rcases hr3 (q, r) hr with h1 | h1
            · exact Or.inr ⟨q, Or.inl (hdrop2sub q h1), h4, h5⟩
            · exact Or.inr ⟨q, h1, h4, h5⟩
      by_cases hreq : 0 < rem - min quantum rem
      · rw [if_pos hreq] at h
        refine hfinish _ h ?_
        intro e he
        rcases List.mem_append.mp he with h1 | h1
        · rcases List.mem_append.mp h1 with h2 | h2
          · exact Or.inl h2
          · obtain ⟨x, hx, hxe⟩ := List.mem_map.mp h2
            exact Or.inr (Or.inl ⟨x, hx, hxe.symm⟩)
        · rcases List.mem_singleton.mp h1 with rfl
          exact Or.inr (Or.inr ⟨hreq, rfl⟩)
      · rw [if_neg hreq] at h
        refine hfinish _ h ?_
        intro e he
        rcases List.mem_append.mp he with h1 | h1
        · exact Or.inl h1
        · obtain ⟨x, hx, hxe⟩ := List.mem_map.mp h1
          exact Or.inr (Or.inl ⟨x, hx, hxe.symm⟩)

theorem totalRem_nil : totalRem [] = 0 := rfl

theorem totalBurst_nil : totalBurst [] = 0 := rfl

theorem totalRem_cons (e : Process × Int) (q : List (Process × Int)) :
    totalRem (e :: q) = e.2.toNat + totalRem q := by
  simp [totalRem]

theorem totalBurst_cons (p : Process) (l : List Process) :
    totalBurst (p :: l) = p.burst.toNat + totalBurst l := by
  simp [totalBurst]

theorem rrLoop_some (quantum : Int) (hquant : 1 ≤ quantum) :
    ∀ (fuel : Nat) (t : Int) (pending : List Process)
      (queue : List (Process × Int)) (acc : List Slice),
      (∀ p ∈ pending, 1 ≤ p.burst) → (∀ e ∈ queue, 1 ≤ e.2) →
      2 * (totalBurst pending + totalRem queue) + 1 ≤ fuel →
      ∃ tl, rrLoop quantum fuel t pending queue acc = some tl := by
  intro fuel
  induction fuel using Nat.strong_induction_on with
  | _ fuel ih =>
    rcases fuel with _ | fuel
    · intro t pending queue acc _ _ hfuel
      exact absurd hfuel (by omega)
    · intro t pending queue acc hbp hqr hfuel
      have popstep : ∀ (m : Nat), m < fuel + 1 →
          ∀ (t2 : Int) (pend2 : List Process) (p : Process) (rem : Int)
            (qtl : List (Process × Int)) (acc2 : List Slice),
          (∀ q ∈ pend2, 1 ≤ q.burst) → 1 ≤ rem → (∀ e ∈ qtl, 1 ≤ e.2) →
          2 * (totalBurst pend2 + (rem.toNat + totalRem qtl)) ≤ m + 1 →
          ∃ tl, rrLoop quantum m (t2 + min quantum rem)
            (pend2.dropWhile (fun x => decide (x.arrival ≤ t2 + min quantum rem)))
            (if 0 < rem - min quantum rem then
              (qtl ++ (pend2.takeWhile
                (fun x => decide (x.arrival ≤ t2 + min quantum rem))).map
                  (fun x => (x, x.burst))) ++ [(p, rem - min quantum rem)]
            else qtl ++ (pend2.takeWhile
                (fun x => decide (x.arrival ≤ t2 + min quantum rem))).map
                  (fun x => (x, x.burst)))
            (acc2 ++ [Slice.mk p.pid t2 (t2 + min quantum rem)]) = some tl := by
        intro m hm t2 pend2 p rem qtl acc2 hb2 hrem hq2 hmeas
        have hsplit2 := List.takeWhile_append_dropWhile
          (fun (x : Process) => decide (x.arrival ≤ t2 + min quantum rem)) pend2
        have htb : totalBurst pend2 =
            totalBurst (pend2.takeWhile
              (fun x => decide (x.arrival ≤ t2 + min quantum rem))) +
            totalBurst (pend2.dropWhile
              (fun x => decide (x.arrival ≤ t2 + min quantum rem))) := by
          rw [← totalBurst_append, hsplit2]
        have huse : 1 ≤ min quantum rem := le_min hquant hrem
        have husele : min quantum rem ≤ rem := min_le_right quantum rem
        have hd2 : ∀ q ∈ pend2.dropWhile
            (fun x => decide (x.arrival ≤ t2 + min quantum rem)), 1 ≤ q.burst :=
          fun q hq3 => hb2 q ((List.dropWhile_sublist
            (fun (x : Process) => decide (x.arrival ≤ t2 + min quantum rem))).mem hq3)
        have ht2 : ∀ q ∈ pend2.takeWhile
            (fun x => decide (x.arrival ≤ t2 + min quantum rem)), 1 ≤ q.burst :=
          fun q hq3 => hb2 q ((List.takeWhile_sublist
            (fun (x : Process) => decide (x.arrival ≤ t2 + min quantum rem))).mem hq3)
        by_cases hreq : 0 < rem - min quantum rem
        · rw [if_pos hreq]
          refine ih m hm (t2 + min quantum rem) _ _
            (acc2 ++ [Slice.mk p.pid t2 (t2 + min quantum rem)]) hd2 ?_ ?_
          · intro e he
            rcases List.mem_append.mp he with h1 | h1
            · rcases List.mem_append.mp h1 with h2 | h2
              · exact hq2 e h2
              · obtain ⟨x, hx, hxe⟩ := List.mem_map.mp h2
                rw [← hxe]
                exact ht2 x hx
            · rcases List.mem_singleton.mp h1 with rfl
              dsimp
              omega
          · rw [totalRem_append, totalRem_append, totalRem_map_burst,
              totalRem_cons, totalRem_nil]
            dsimp only
            omega
        · rw [if_neg hreq]
          refine ih m hm (t2 + min quantum rem) _ _
            (acc2 ++ [Slice.mk p.pid t2 (t2 + min quantum rem)]) hd2 ?_ ?_
          · intro e he
            rcases List.mem_append.mp he with h1 | h1
            · exact hq2 e h1
            · obtain ⟨x, hx, hxe⟩ := List.mem_map.mp h1
              rw [← hxe]
              exact ht2 x hx
          · rw [totalRem_append, totalRem_map_burst]
            omega
      have hsplit := List.takeWhile_append_dropWhile
        (fun (p : Process) => decide (p.arrival ≤ t)) pending
      have htb1 : totalBurst pending =
          totalBurst (pending.takeWhile (fun p => decide (p.arrival ≤ t))) +
          totalBurst (pending.dropWhile (fun p => decide (p.arrival ≤ t))) := by
        rw [← totalBurst_append, hsplit]
      simp only [rrLoop]
      rcases hq : queue ++ (pending.takeWhile (fun p => decide (p.arrival ≤ t))).map
          (fun p => (p, p.burst)) with _ | ⟨⟨p, rem⟩, qtl⟩
      · obtain ⟨h1, h2⟩ := List.append_eq_nil.mp hq
        have h3 : pending.takeWhile (fun p => decide (p.arrival ≤ t)) = [] :=
          List.map_eq_nil_iff.mp h2
        rcases hrest : pending.dropWhile (fun p => decide (p.arrival ≤ t)) with _ | ⟨nxt, tail⟩
        · rw [hrest]
          exact ⟨acc, rfl⟩
        · rw [hrest]
          rw [h3, List.nil_append, hrest] at hsplit
          rcases fuel with _ | fuel
          · exfalso
            have hb : 1 ≤ nxt.burst := hbp nxt (by rw [← hsplit]; exact List.mem_cons_self _ _)
            have htb2 : totalBurst pending = nxt.burst.toNat + totalBurst tail := by
              rw [← hsplit, totalBurst_cons]
            omega
          · simp only [rrLoop]
            have htw : (nxt :: tail).takeWhile
                (fun p => decide (p.arrival ≤ nxt.arrival)) =
                nxt :: tail.takeWhile (fun p => decide (p.arrival ≤ nxt.arrival)) := by
              rw [List.takeWhile_cons_of_pos]
              simp
            rw [htw]
            have hb : 1 ≤ nxt.burst := hbp nxt (by rw [← hsplit]; exact List.mem_cons_self _ _)
            have htailsub : ∀ q ∈ tail, q ∈ pending := by
              intro q hq3
              rw [← hsplit]
              exact List.mem_cons_of_mem nxt hq3
            have htwsub : ∀ q ∈ tail.takeWhile
                (fun p => decide (p.arrival ≤ nxt.arrival)), q ∈ pending :=
              fun q hq3 => htailsub q ((List.takeWhile_sublist
                (fun (p : Process) => decide (p.arrival ≤ nxt.arrival))).mem hq3)
            have hsplit3 := List.takeWhile_append_dropWhile
              (fun (p : Process) => decide (p.arrival ≤ nxt.arrival)) (nxt :: tail)
            have htb3 : totalBurst (nxt :: tail) =
                totalBurst ((nxt :: tail).takeWhile
                  (fun p => decide (p.arrival ≤ nxt.arrival))) +
                totalBurst ((nxt :: tail).dropWhile
                  (fun p => decide (p.arrival ≤ nxt.arrival))) := by
              rw [← totalBurst_append, hsplit3]
            rw [htw, totalBurst_cons] at htb3
            have he2 : totalBurst (nxt :: tail.takeWhile
                (fun p => decide (p.arrival ≤ nxt.arrival))) =
                nxt.burst.toNat + totalBurst (tail.takeWhile
                  (fun p => decide (p.arrival ≤ nxt.arrival))) :=
              totalBurst_cons _ _
            rw [he2] at htb3
            have htbp : totalBurst pending = totalBurst (nxt :: tail) := by rw [hsplit]
            rw [totalBurst_cons] at htbp
            have hq1n : totalRem queue = 0 := by rw [h1]; rfl
            obtain ⟨tl, htl⟩ := popstep fuel (by omega) nxt.arrival
              ((nxt :: tail).dropWhile (fun p => decide (p.arrival ≤ nxt.arrival)))
              nxt nxt.burst
              ((tail.takeWhile (fun p => decide (p.arrival ≤ nxt.arrival))).map
                (fun x => (x, x.burst)))
              acc
              (fun q hq3 => hbp q (by
                have := (List.dropWhile_sublist
                  (fun (p : Process) => decide (p.arrival ≤ nxt.arrival))).mem hq3
                rw [← hsplit]
                exact this))
              hb
              (fun e he => by
                obtain ⟨x, hx, hxe⟩ := List.mem_map.mp he
                rw [← hxe]
                exact hbp x (htwsub x hx))
              (by
                rw [totalRem_map_burst]
                omega)
            exact ⟨tl, htl⟩
      · have htakesub : ∀ q ∈ pending.takeWhile (fun p => decide (p.arrival ≤ t)),
            q ∈ pending :=
          fun q hq2 => (List.takeWhile_sublist
            (fun (p : Process) => decide (p.arrival ≤ t))).mem hq2
        have hq1mem : ∀ e, e ∈ ((p, rem) :: qtl) → e ∈ queue ∨
            ∃ x, x ∈ pending.takeWhile (fun p => decide (p.arrival ≤ t)) ∧
              e = (x, x.burst) := by
          intro e he
          rw [← hq] at he
          rcases List.mem_append.mp he with h1 | h1
          · exact Or.inl h1
          · obtain ⟨x, hx, hxe⟩ := List.mem_map.mp h1
            exact Or.inr ⟨x, hx, hxe.symm⟩
        have hq1rem : ∀ e ∈ ((p, rem) :: qtl), 1 ≤ e.2 := by
          intro e he
          rcases hq1mem e he with h1 | ⟨x, hx, rfl⟩
          · exact hqr e h1
          · exact hbp x (htakesub x hx)
        have hrem : 1 ≤ rem := hq1rem (p, rem) (List.mem_cons_self _ _)
        have hmeasq := congrArg totalRem hq
        rw [totalRem_append, totalRem_map_burst, totalRem_cons] at hmeasq
        dsimp only at hmeasq
        obtain ⟨tl, htl⟩ := popstep fuel (by omega) t
          (pending.dropWhile (fun p => decide (p.arrival ≤ t))) p rem qtl acc
          (fun q hq2 => hbp q ((List.dropWhile_sublist
            (fun (p : Process) => decide (p.arrival ≤ t))).mem hq2))
          hrem
          (fun e he => hq1rem e (List.mem_cons_of_mem _ he))
          (by omega)
        exact ⟨tl, htl⟩

theorem fcfsLoop_jump (t : Int) (q : Process) (l : List Process) (h : t ≤ q.arrival) :
    fcfsLoop t (q :: l) = fcfsLoop q.arrival (q :: l) := by
  have h1 : (if t < q.arrival then q.arrival else t) = q.arrival := by
    split <;> omega
  have h2 : (if q.arrival < q.arrival then q.arrival else q.arrival) = q.arrival := by
    split <;> omega
  simp only [fcfsLoop, h1, h2]

theorem fcfsLoop_cons_arrived (t : Int) (q : Process) (l : List Process)
    (h : q.arrival ≤ t) :
    fcfsLoop t (q :: l) =
      Slice.mk q.pid t (t + q.burst) :: fcfsLoop (t + q.burst) l := by
  have h1 : (if t < q.arrival then q.arrival else t) = t := by
    split <;> omega
  simp only [fcfsLoop, h1]

theorem map_fst_pair (l : List Process) :
    (l.map (fun p => (p, p.burst))).map Prod.fst = l := by
  induction l with
  | nil => rfl
  | cons p l ih => simp [ih]

theorem rr_eq_fcfs (quantum : Int) :
    ∀ (fuel : Nat) (t : Int) (pending : List Process)
      (queue : List (Process × Int)) (acc : List Slice),
      (∀ p ∈ pending, 1 ≤ p.burst ∧ p.burst ≤ quantum) →
      (∀ e ∈ queue, e.2 = e.1.burst ∧ 1 ≤ e.1.burst ∧ e.1.burst ≤ quantum ∧
        e.1.arrival ≤ t) →
      2 * (totalBurst pending + totalRem queue) + 1 ≤ fuel →
      rrLoop quantum fuel t pending queue acc =
        some (acc ++ fcfsLoop t (queue.map Prod.fst ++ pending)) := by
  intro fuel
  induction fuel using Nat.strong_induction_on with
  | _ fuel ih =>
    rcases fuel with _ | fuel
    · intro t pending queue acc _ _ hfuel
      exact absurd hfuel (by omega)
    · intro t pending queue acc hbp hqe hfuel
      have popeq : ∀ (m : Nat), m < fuel + 1 →
          ∀ (t2 : Int) (pend2 : List Process) (p : Process)
            (qtl2 : List (Process × Int)) (acc2 : List Slice),
          p.arrival ≤ t2 → 1 ≤ p.burst → p.burst ≤ quantum →
          (∀ q ∈ pend2, 1 ≤ q.burst ∧ q.burst ≤ quantum) →
          (∀ e ∈ qtl2, e.2 = e.1.burst ∧ 1 ≤ e.1.burst ∧ e.1.burst ≤ quantum ∧
            e.1.arrival ≤ t2) →
          2 * (totalBurst pend2 + (p.burst.toNat + totalRem qtl2)) ≤ m + 1 →
          rrLoop quantum m (t2 + min quantum p.burst)
            (pend2.dropWhile (fun x => decide (x.arrival ≤ t2 + min quantum p.burst)))
            (if 0 < p.burst - min quantum p.burst then
              (qtl2 ++ (pend2.takeWhile
                (fun x => decide (x.arrival ≤ t2 + min quantum p.burst))).map
                  (fun x => (x, x.burst))) ++ [(p, p.burst - min quantum p.burst)]
            else qtl2 ++ (pend2.takeWhile
                (fun x => decide (x.arrival ≤ t2 + min quantum p.burst))).map
                  (fun x => (x, x.burst)))
            (acc2 ++ [Slice.mk p.pid t2 (t2 + min quantum p.burst)]) =
            some (acc2 ++ fcfsLoop t2 (p :: (qtl2.map Prod.fst ++ pend2))) := by
        intro m hm t2 pend2 p qtl2 acc2 hparr hb1 hb2 hpend2 hqtl2 hmeas
        have hmin : min quantum p.burst = p.burst := min_eq_right hb2
        rw [hmin]
        have hz : ¬(0 < p.burst - p.burst) := by omega
        rw [if_neg hz]
        have hsplit3 := List.takeWhile_append_dropWhile
          (fun (x : Process) => decide (x.arrival ≤ t2 + p.burst)) pend2
        have htb3 : totalBurst pend2 =
            totalBurst (pend2.takeWhile (fun x => decide (x.arrival ≤ t2 + p.burst))) +
            totalBurst (pend2.dropWhile (fun x => decide (x.arrival ≤ t2 + p.burst))) := by
          rw [← totalBurst_append, hsplit3]
        have := ih m hm (t2 + p.burst)
          (pend2.dropWhile (fun x => decide (x.arrival ≤ t2 + p.burst)))
          (qtl2 ++ (pend2.takeWhile (fun x => decide (x.arrival ≤ t2 + p.burst))).map
            (fun x => (x, x.burst)))
          (acc2 ++ [Slice.mk p.pid t2 (t2 + p.burst)])
          (fun q hq3 => hpend2 q ((List.dropWhile_sublist
            (fun (x : Process) => decide (x.arrival ≤ t2 + p.burst))).mem hq3))
          (fun e he => by
            rcases List.mem_append.mp he with h1 | h1
            · obtain ⟨he1, he2, he3, he4⟩ := hqtl2 e h1
              exact ⟨he1, he2, he3, by omega⟩
            · obtain ⟨x, hx, hxe⟩ := List.mem_map.mp h1
              have hxp := hpend2 x ((List.takeWhile_sublist
                (fun (x : Process) => decide (x.arrival ≤ t2 + p.burst))).mem hx)
              have hxa : x.arrival ≤ t2 + p.burst := by
                have := List.mem_takeWhile_imp hx
                simpa using this
              rw [← hxe]
              exact ⟨rfl, hxp.1, hxp.2, hxa⟩)
          (by
            rw [totalRem_append, totalRem_map_burst]
            omega)
        rw [this]
        congr 1
        rw [fcfsLoop_cons_arrived t2 p _ hparr]
        rw [List.append_assoc]
        congr 1
        rw [List.map_append, map_fst_pair, List.append_assoc, hsplit3]
        rfl
      have hsplit := List.takeWhile_append_dropWhile
        (fun (p : Process) => decide (p.arrival ≤ t)) pending
      have htb1 : totalBurst pending =
          totalBurst (pending.takeWhile (fun p => decide (p.arrival ≤ t))) +
          totalBurst (pending.dropWhile (fun p => decide (p.arrival ≤ t))) := by
        rw [← totalBurst_append, hsplit]
      simp only [rrLoop]
      rcases hq : queue ++ (pending.takeWhile (fun p => decide (p.arrival ≤ t))).map
          (fun p => (p, p.burst)) with _ | ⟨⟨p, rem⟩, qtl⟩
      · obtain ⟨h1, h2⟩ := List.append_eq_nil.mp hq
        have h3 : pending.takeWhile (fun p => decide (p.arrival ≤ t)) = [] :=
          List.map_eq_nil_iff.mp h2
        rcases hrest : pending.dropWhile (fun p => decide (p.arrival ≤ t)) with _ | ⟨nxt, tail⟩
        · rw [hrest]
          have hp : pending = [] := by
            rw [← hsplit, h3, hrest]
            rfl
          rw [hp, h1]
          simp [fcfsLoop]
        · rw [hrest]
          rw [h3, List.nil_append, hrest] at hsplit
          have hnxt : t < nxt.arrival := by
            have := dropWhile_head_not (fun p => decide (p.arrival ≤ t)) pending nxt tail hrest
            simpa using this
          rcases fuel with _ | fuel
          · exfalso
            have hb : 1 ≤ nxt.burst := (hbp nxt (by rw [← hsplit]; exact List.mem_cons_self _ _)).1
            have htb2 : totalBurst pending = nxt.burst.toNat + totalBurst tail := by
              rw [← hsplit, totalBurst_cons]
            omega
          · simp only [rrLoop]
            have htw : (nxt :: tail).takeWhile
                (fun p => decide (p.arrival ≤ nxt.arrival)) =
                nxt :: tail.takeWhile (fun p => decide (p.arrival ≤ nxt.arrival)) := by
              rw [List.takeWhile_cons_of_pos]
              simp
            rw [htw]
            have hbn := hbp nxt (by rw [← hsplit]; exact List.mem_cons_self _ _)
            have htailsub : ∀ q ∈ tail, q ∈ pending := by
              intro q hq3
              rw [← hsplit]
              exact List.mem_cons_of_mem nxt hq3
            have htwsub : ∀ q ∈ tail.takeWhile
                (fun p => decide (p.arrival ≤ nxt.arrival)), q ∈ pending :=
              fun q hq3 => htailsub q ((List.takeWhile_sublist
                (fun (p : Process) => decide (p.arrival ≤ nxt.arrival))).mem hq3)
            have htwarr : ∀ q ∈ tail.takeWhile
                (fun p => decide (p.arrival ≤ nxt.arrival)), q.arrival ≤ nxt.arrival := by
              intro q hq3
              have := List.mem_takeWhile_imp hq3
              simpa using this
            have hdw : (nxt :: tail).dropWhile
                (fun p => decide (p.arrival ≤ nxt.arrival)) =
                tail.dropWhile (fun p => decide (p.arrival ≤ nxt.arrival)) := by
              rw [List.dropWhile_cons_of_pos]
              simp
            have hsplitt := List.takeWhile_append_dropWhile
              (fun (p : Process) => decide (p.arrival ≤ nxt.arrival)) tail
            have htbt : totalBurst tail =
                totalBurst (tail.takeWhile (fun p => decide (p.arrival ≤ nxt.arrival))) +
                totalBurst (tail.dropWhile (fun p => decide (p.arrival ≤ nxt.arrival))) := by
              rw [← totalBurst_append, hsplitt]
            have htbp : totalBurst pending = nxt.burst.toNat + totalBurst tail := by
              rw [← hsplit, totalBurst_cons]
            have hq1n : totalRem queue = 0 := by rw [h1]; rfl
            have hpop := popeq fuel (by omega) nxt.arrival
              ((nxt :: tail).dropWhile (fun p => decide (p.arrival ≤ nxt.arrival)))
              nxt
              ((tail.takeWhile (fun p => decide (p.arrival ≤ nxt.arrival))).map
                (fun x => (x, x.burst)))
              acc
              (le_refl nxt.arrival) hbn.1 hbn.2
              (fun q hq3 => hbp q (by
                have := (List.dropWhile_sublist
                  (fun (p : Process) => decide (p.arrival ≤ nxt.arrival))).mem hq3
                rw [← hsplit]
                exact this))
              (fun e he => by
                obtain ⟨x, hx, hxe⟩ := List.mem_map.mp he
                have hxp := hbp x (htwsub x hx)
                rw [← hxe]
                exact ⟨rfl, hxp.1, hxp.2, htwarr x hx⟩)
              (by
                rw [totalRem_map_burst, hdw]
                omega)
            have hlists : nxt :: (((tail.takeWhile
                (fun p => decide (p.arrival ≤ nxt.arrival))).map
                  (fun x => (x, x.burst))).map Prod.fst ++
                (nxt :: tail).dropWhile (fun p => decide (p.arrival ≤ nxt.arrival))) =
                nxt :: tail := by
              rw [map_fst_pair, hdw, hsplitt]
            have hjump2 : fcfsLoop t (List.map Prod.fst queue ++ pending) =
                fcfsLoop nxt.arrival (nxt :: tail) := by
              rw [h1, List.map_nil, List.nil_append, ← hsplit]
              exact fcfsLoop_jump t nxt tail (le_of_lt hnxt)
            refine hpop.trans ?_
            rw [hlists, hjump2]
      · have htakesub : ∀ q ∈ pending.takeWhile (fun p => decide (p.arrival ≤ t)),
            q ∈ pending :=
          fun q hq2 => (List.takeWhile_sublist
            (fun (p : Process) => decide (p.arrival ≤ t))).mem hq2
        have htakearr : ∀ q ∈ pending.takeWhile (fun p => decide (p.arrival ≤ t)),
            q.arrival ≤ t := by
          intro q hq2
          have := List.mem_takeWhile_imp hq2
          simpa using this
        have hq1mem : ∀ e, e ∈ ((p, rem) :: qtl) → e ∈ queue ∨
            ∃ x, x ∈ pending.takeWhile (fun p => decide (p.arrival ≤ t)) ∧
              e = (x, x.burst) := by
          intro e he
          rw [← hq] at he
          rcases List.mem_append.mp he with h1 | h1
          · exact Or.inl h1
          · obtain ⟨x, hx, hxe⟩ := List.mem_map.mp h1
            exact Or.inr ⟨x, hx, hxe.symm⟩
        have hq1inv : ∀ e ∈ ((p, rem) :: qtl), e.2 = e.1.burst ∧ 1 ≤ e.1.burst ∧
            e.1.burst ≤ quantum ∧ e.1.arrival ≤ t := by
          intro e he
          rcases hq1mem e he with h1 | ⟨x, hx, rfl⟩
          · exact hqe e h1
          · have hxp := hbp x (htakesub x hx)
            exact ⟨rfl, hxp.1, hxp.2, htakearr x hx⟩
        have hpinv := hq1inv (p, rem) (List.mem_cons_self _ _)
        have hrem : rem = p.burst := hpinv.1
        have hmeasq := congrArg totalRem hq
        rw [totalRem_append, totalRem_map_burst, totalRem_cons] at hmeasq
        dsimp only at hmeasq
        have hpop := popeq fuel (by omega) t
          (pending.dropWhile (fun p => decide (p.arrival ≤ t))) p qtl acc
          hpinv.2.2.2 hpinv.2.1 hpinv.2.2.1
          (fun q hq2 => hbp q ((List.dropWhile_sublist
            (fun (p : Process) => decide (p.arrival ≤ t))).mem hq2))
          (fun e he => hq1inv e (List.mem_cons_of_mem _ he))
          (by omega)
        rw [hrem]
        refine hpop.trans ?_
        have hqfst := congrArg (List.map Prod.fst) hq
        rw [List.map_append, map_fst_pair] at hqfst
        simp only [List.map_cons] at hqfst
        have hlists2 : p :: (qtl.map Prod.fst ++
            pending.dropWhile (fun p => decide (p.arrival ≤ t))) =
            List.map Prod.fst queue ++ pending := by
          conv_rhs => rw [← hsplit]
          rw [← List.append_assoc, hqfst]
          rfl
        rw [hlists2]

theorem durFor_nonneg (s : String) : ∀ (tl : List Slice),
    (∀ sl ∈ tl, sl.start < sl.«end») → 0 ≤ durFor s tl := by
  intro tl
  induction tl with
  | nil => intro _; exact le_refl 0
  | cons sl tl ih =>
    intro hpos
    rw [durFor_cons]
    have h1 := ih (fun x hx => hpos x (List.mem_cons_of_mem sl hx))
    have h2 := hpos sl (List.mem_cons_self sl tl)
    by_cases hps : sl.pid = s
    · simp only [hps, if_pos]
      omega
    · simp only [hps, if_neg, not_false_iff, if_false]
      omega

theorem durFor_pos_of_mem (s : String) : ∀ (tl : List Slice) (sl' : Slice),
    sl' ∈ tl → sl'.pid = s → (∀ sl ∈ tl, sl.start < sl.«end») →
    0 < durFor s tl := by
  intro tl
  induction tl with
  | nil => intro sl' h; cases h
  | cons sl tl ih =>
    intro sl' hmem hpid hpos
    rw [durFor_cons]
    have h1 := durFor_nonneg s tl (fun x hx => hpos x (List.mem_cons_of_mem sl hx))
    rcases List.mem_cons.mp hmem with rfl | hmem2
    · have h2 := hpos sl' (List.mem_cons_self sl' tl)
      simp only [hpid, if_pos]
      omega
    · have h3 := ih sl' hmem2 hpid (fun x hx => hpos x (List.mem_cons_of_mem sl hx))
      by_cases hps : sl.pid = s
      · have h2 := hpos sl (List.mem_cons_self sl tl)
        simp only [hps, if_pos]
        omega
      · simp only [hps, if_neg, not_false_iff, if_false]
        omega

theorem lastEndFor_none_iff (s : String) : ∀ (tl : List Slice),
    lastEndFor s tl = none ↔ ∀ sl ∈ tl, ¬(sl.pid = s) := by
  intro tl
  induction tl with
  | nil => simp [lastEndFor]
  | cons sl tl ih =>
    simp only [lastEndFor]
    constructor
    · intro h
      rcases hle : lastEndFor s tl with _ | e
      · rw [hle] at h
        intro x hx
        rcases List.mem_cons.mp hx with rfl | hx2
        · intro hps
          have : (x.pid == s) = true := by simp [hps]
          rw [this] at h
          cases h
        · exact (ih.mp hle) x hx2
      · rw [hle] at h
        cases h
    · intro h
      have hle : lastEndFor s tl = none :=
        ih.mpr (fun x hx => h x (List.mem_cons_of_mem sl hx))
      rw [hle]
      have : (sl.pid == s) = false :=
        beq_eq_false_iff_ne.mpr (h sl (List.mem_cons_self sl tl))
      simp [this]

theorem lastEnd_ge (s : String) : ∀ (tl : List Slice) (a : Int),
    tl.Pairwise (fun x y => x.«end» ≤ y.start) →
    (∀ sl ∈ tl, sl.start < sl.«end») →
    (∀ sl ∈ tl, sl.pid = s → a ≤ sl.start) →
    0 < durFor s tl →
    ∃ e, lastEndFor s tl = some e ∧ a + durFor s tl ≤ e := by
  intro tl
  induction tl with
  | nil =>
    intro a _ _ _ hdur
    exact absurd hdur (by simp [durFor])
  | cons sl tl ih =>
    intro a hpw hpos harr hdur
    rw [List.pairwise_cons] at hpw
    have hpos' : ∀ x ∈ tl, x.start < x.«end» :=
      fun x hx => hpos x (List.mem_cons_of_mem sl hx)
    have hnn := durFor_nonneg s tl hpos'
    by_cases hps : sl.pid = s
    · rw [durFor_cons] at hdur ⊢
      simp only [hps, if_pos] at hdur ⊢
      have hstart : a ≤ sl.start := harr sl (List.mem_cons_self sl tl) hps
      by_cases hz : 0 < durFor s tl
      · obtain ⟨e, he, hge⟩ := ih sl.«end» hpw.2 hpos'
          (fun x hx _ => hpw.1 x hx) hz
        refine ⟨e, ?_, ?_⟩
        · simp only [lastEndFor, he]
        · omega
      · have hzero : durFor s tl = 0 := le_antisymm (by omega) hnn
        have hnone : lastEndFor s tl = none := by
          rw [lastEndFor_none_iff]
          intro x hx hxp
          exact absurd (durFor_pos_of_mem s tl x hx hxp hpos') (by omega)
        refine ⟨sl.«end», ?_, ?_⟩
        · simp only [lastEndFor, hnone]
          have : (sl.pid == s) = true := by simp [hps]
          simp [this]
        · have h2 := hpos sl (List.mem_cons_self sl tl)
          omega
    · rw [durFor_cons] at hdur ⊢
      simp only [hps, if_neg, not_false_iff, if_false] at hdur ⊢
      have harr' : ∀ x ∈ tl, x.pid = s → a ≤ x.start :=
        fun x hx hxp => harr x (List.mem_cons_of_mem sl hx) hxp
      obtain ⟨e, he, hge⟩ := ih a hpw.2 hpos' harr' (by omega)
      refine ⟨e, ?_, by omega⟩
      simp only [lastEndFor, he]

theorem filter_pid_single (procs : List Process)
    (hn : (procs.map Process.pid).Nodup) (p : Process) (hp : p ∈ procs) :
    procs.filter (fun q => q.pid == p.pid) = [p] := by
  induction procs with
  | nil => cases hp
  | cons q rest ih =>
    rw [List.map_cons, List.nodup_cons] at hn
    rcases List.mem_cons.mp hp with rfl | hp2
    · rw [List.filter_cons_of_pos (by simp)]
      have : rest.filter (fun q2 => q2.pid == p.pid) = [] := by
        rw [List.filter_eq_nil_iff]
        intro x hx
        simp only [beq_iff_eq]
        intro he
        exact hn.1 (List.mem_map.mpr ⟨x, hx, he⟩)
      rw [this]
    · have hne : (q.pid == p.pid) = false := by
        rw [beq_eq_false_iff_ne]
        intro he
        exact hn.1 (List.mem_map.mpr ⟨p, hp2, he.symm⟩)
      rw [List.filter_cons_of_neg (by simp [hne])]
      exact ih hn.2 hp2

theorem burstFor_self (procs : List Process)
    (hn : (procs.map Process.pid).Nodup) (p : Process) (hp : p ∈ procs) :
    burstFor p.pid procs = p.burst := by
  unfold burstFor
  rw [filter_pid_single procs hn p hp]
  simp

theorem pcountFor_self (procs : List Process)
    (hn : (procs.map Process.pid).Nodup) (p : Process) (hp : p ∈ procs) :
    pcountFor p.pid procs = 1 := by
  unfold pcountFor
  rw [List.countP_eq_length_filter, filter_pid_single procs hn p hp]
  rfl

theorem pid_unique (procs : List Process)
    (hn : (procs.map Process.pid).Nodup) (p p' : Process) (hp : p ∈ procs)
    (hp' : p' ∈ procs) (he : p'.pid = p.pid) : p' = p := by
  have : p' ∈ procs.filter (fun q => q.pid == p.pid) :=
    List.mem_filter.mpr ⟨hp', by simp [he]⟩
  rw [filter_pid_single procs hn p hp] at this
  exact List.mem_singleton.mp this

theorem runAlg_tl (alg : Alg) (procs : List Process) (q : Int)
    (hb : ∀ p ∈ procs, 1 ≤ p.burst) (hq : 1 ≤ q) :
    ∃ tl, runAlg alg procs q = compute_metrics (algName alg q) procs tl ∧
      (∀ s, durFor s tl = burstFor s procs) ∧
      (alg ≠ Alg.RR → ∀ s, countFor s tl = pcountFor s procs) ∧
      tl.Pairwise (fun x y => x.«end» ≤ y.start) ∧
      (∀ sl ∈ tl, sl.start < sl.«end») ∧
      (∀ sl ∈ tl, ∃ p ∈ procs, p.pid = sl.pid ∧ p.arrival ≤ sl.start) := by
  have hperm := sortLe_perm arrivalLe procs
  have hbs : ∀ p ∈ sortLe arrivalLe procs, 1 ≤ p.burst :=
    fun p hp => hb p (hperm.mem_iff.mp hp)
  cases alg
  case FCFS =>
    refine ⟨fcfsLoop 0 (sortLe arrivalLe procs), rfl, ?_, ?_, ?_, ?_, ?_⟩
    · intro s
      rw [fcfsLoop_dur s (sortLe arrivalLe procs) 0, burstFor_perm s hperm]
    · intro _ s
      rw [fcfsLoop_count s (sortLe arrivalLe procs) 0, pcountFor_perm s hperm]
    · exact (fcfsLoop_ord (sortLe arrivalLe procs) hbs 0).2
    · intro sl hsl
      exact ((fcfsLoop_ord (sortLe arrivalLe procs) hbs 0).1 sl hsl).2.1
    · intro sl hsl
      obtain ⟨_, _, p, hp, h1, h2, _⟩ :=
        (fcfsLoop_ord (sortLe arrivalLe procs) hbs 0).1 sl hsl
      exact ⟨p, hperm.mem_iff.mp hp, h1, h2⟩
  case SJF =>
    obtain ⟨tl, htl⟩ := npLoop_some sjfLe (npFuel procs) 0 (sortLe arrivalLe procs) [] []
      (by
        rw [npFuel, length_perm_sortLe]
        simp)
    refine ⟨tl, ?_, ?_, ?_, ?_, ?_, ?_⟩
    · show sjf_non_preemptive procs = _
      rw [sjf_non_preemptive, htl]
      rfl
    · intro s
      have := npLoop_dur sjfLe s (npFuel procs) 0 _ [] [] tl htl
      rw [this, durFor_nil, burstFor_nil, burstFor_perm s hperm]
      omega
    · intro _ s
      have := npLoop_count sjfLe s (npFuel procs) 0 _ [] [] tl htl
      rw [this, countFor_nil, pcountFor_nil, pcountFor_perm s hperm]
      omega
    · exact (npLoop_ord sjfLe (npFuel procs) 0 _ [] [] tl htl hbs
        (fun p hp => absurd hp (List.not_mem_nil p))
        (fun p hp => absurd hp (List.not_mem_nil p))
        (fun sl hsl => absurd hsl (List.not_mem_nil sl))
        List.Pairwise.nil
        (fun sl hsl => absurd hsl (List.not_mem_nil sl))).1
    · exact (npLoop_ord sjfLe (npFuel procs) 0 _ [] [] tl htl hbs
        (fun p hp => absurd hp (List.not_mem_nil p))
        (fun p hp => absurd hp (List.not_mem_nil p))
        (fun sl hsl => absurd hsl (List.not_mem_nil sl))
        List.Pairwise.nil
        (fun sl hsl => absurd hsl (List.not_mem_nil sl))).2.1
    · intro sl hsl
      rcases (npLoop_ord sjfLe (npFuel procs) 0 _ [] [] tl htl hbs
        (fun p hp => absurd hp (List.not_mem_nil p))
        (fun p hp => absurd hp (List.not_mem_nil p))
        (fun sl hsl => absurd hsl (List.not_mem_nil sl))
        List.Pairwise.nil
        (fun sl hsl => absurd hsl (List.not_mem_nil sl))).2.2 sl hsl with
        hin | ⟨p, hp, h1, h2⟩
      · exact absurd hin (List.not_mem_nil sl)
      · rcases hp with hp | hp
        · exact ⟨p, hperm.mem_iff.mp hp, h1, h2⟩
        · exact absurd hp (List.not_mem_nil p)
  case PRIORITY =>
    obtain ⟨tl, htl⟩ := npLoop_some prioLe (npFuel procs) 0 (sortLe arrivalLe procs) [] []
      (by
        rw [npFuel, length_perm_sortLe]
        simp)
    refine ⟨tl, ?_, ?_, ?_, ?_, ?_, ?_⟩
    · show priority_non_preemptive procs = _
      rw [priority_non_preemptive, htl]
      rfl
    · intro s
      have := npLoop_dur prioLe s (npFuel procs) 0 _ [] [] tl htl
      rw [this, durFor_nil, burstFor_nil, burstFor_perm s hperm]
      omega
    · intro _ s
      have := npLoop_count prioLe s (npFuel procs) 0 _ [] [] tl htl
      rw [this, countFor_nil, pcountFor_nil, pcountFor_perm s hperm]
      omega
    · exact (npLoop_ord prioLe (npFuel procs) 0 _ [] [] tl htl hbs
        (fun p hp => absurd hp (List.not_mem_nil p))
        (fun p hp => absurd hp (List.not_mem_nil p))
        (fun sl hsl => absurd hsl (List.not_mem_nil sl))
        List.Pairwise.nil
        (fun sl hsl => absurd hsl (List.not_mem_nil sl))).1
    · exact (npLoop_ord prioLe (npFuel procs) 0 _ [] [] tl htl hbs
        (fun p hp => absurd hp (List.not_mem_nil p))
        (fun p hp => absurd hp (List.not_mem_nil p))
        (fun sl hsl => absurd hsl (List.not_mem_nil sl))
        List.Pairwise.nil
        (fun sl hsl => absurd hsl (List.not_mem_nil sl))).2.1
    · intro sl hsl
      rcases (npLoop_ord prioLe (npFuel procs) 0 _ [] [] tl htl hbs
        (fun p hp => absurd hp (List.not_mem_nil p))
        (fun p hp => absurd hp (List.not_mem_nil p))
        (fun sl hsl => absurd hsl (List.not_mem_nil sl))
        List.Pairwise.nil
        (fun sl hsl => absurd hsl (List.not_mem_nil sl))).2.2 sl hsl with
        hin | ⟨p, hp, h1, h2⟩
      · exact absurd hin (List.not_mem_nil sl)
      · rcases hp with hp | hp
        · exact ⟨p, hperm.mem_iff.mp hp, h1, h2⟩
        · exact absurd hp (List.not_mem_nil p)
  case RR =>
    obtain ⟨tl, htl⟩ := rrLoop_some q hq (rrFuel procs) 0 (sortLe arrivalLe procs) [] []
      hbs (fun e he => absurd he (List.not_mem_nil e))
      (by
        rw [totalRem_nil, totalBurst_perm hperm, rrFuel]
        unfold totalBurst
        omega)
    refine ⟨tl, ?_, ?_, ?_, ?_, ?_, ?_⟩
    · show round_robin procs q = _
      rw [round_robin, htl]
      rfl
    · intro s
      have := rrLoop_dur q s (rrFuel procs) 0 _ [] [] tl htl
      rw [this, durFor_nil, remFor_nil, burstFor_perm s hperm]
      omega
    · intro h
      exact absurd rfl h
    · exact (rrLoop_ord q hq (rrFuel procs) 0 _ [] [] tl htl hbs
        (fun e he => absurd he (List.not_mem_nil e))
        (fun e he => absurd he (List.not_mem_nil e))
        (fun sl hsl => absurd hsl (List.not_mem_nil sl))
        List.Pairwise.nil
        (fun sl hsl => absurd hsl (List.not_mem_nil sl))).1
    · exact (rrLoop_ord q hq (rrFuel procs) 0 _ [] [] tl htl hbs
        (fun e he => absurd he (List.not_mem_nil e))
        (fun e he => absurd he (List.not_mem_nil e))
        (fun sl hsl => absurd hsl (List.not_mem_nil sl))
        List.Pairwise.nil
        (fun sl hsl => absurd hsl (List.not_mem_nil sl))).2.1
    · intro sl hsl
      rcases (rrLoop_ord q hq (rrFuel procs) 0 _ [] [] tl htl hbs
        (fun e he => absurd he (List.not_mem_nil e))
        (fun e he => absurd he (List.not_mem_nil e))
        (fun sl hsl => absurd hsl (List.not_mem_nil sl))
        List.Pairwise.nil
        (fun sl hsl => absurd hsl (List.not_mem_nil sl))).2.2 sl hsl with
        hin | ⟨p, hp, h1, h2⟩
      · exact absurd hin (List.not_mem_nil sl)
      · rcases hp with hp | ⟨r, hr⟩
        · exact ⟨p, hperm.mem_iff.mp hp, h1, h2⟩
        · exact absurd hr (List.not_mem_nil (p, r))

theorem firstStartFor_none (s : String) : ∀ (tl : List Slice),
    (∀ sl ∈ tl, sl.pid ≠ s) → firstStartFor s tl = none := by
  intro tl
  induction tl with
  | nil => intro _; rfl
  | cons sl tl ih =>
    intro h
    have : (sl.pid == s) = false :=
      beq_eq_false_iff_ne.mpr (h sl (List.mem_cons_self sl tl))
    simp only [firstStartFor, this, Bool.false_eq_true, not_false_iff, if_false]
    exact ih (fun x hx => h x (List.mem_cons_of_mem sl hx))

/-- C1: for a process list with distinct pids (the data model requires pid
uniqueness) and bursts at least 1, and quantum at least 1, every one of the
four algorithms succeeds and its timeline conserves CPU time: the total
duration of the slices bearing each process's pid equals that process's
burst; the three non-preemptive algorithms emit exactly one slice per
process (round robin may emit several, as on the seed input). -/
theorem claim_C1 (procs : List Process) (q : Int)
    (hn : (procs.map Process.pid).Nodup)
    (hb : ∀ p ∈ procs, 1 ≤ p.burst) (hq : 1 ≤ q) (alg : Alg) :
    ∃ r, runAlg alg procs q = some r ∧
      (∀ p ∈ procs, durFor p.pid r.timeline = p.burst) ∧
      (alg ≠ Alg.RR → ∀ p ∈ procs, countFor p.pid r.timeline = 1) := by
  obtain ⟨tl, heq, hdur, hcnt, hpw, hpos, hprov⟩ := runAlg_tl alg procs q hb hq
  have hpid : ∀ sl ∈ tl, ∃ p ∈ procs, p.pid = sl.pid := by
    intro sl hsl
    obtain ⟨p, hp, h1, _⟩ := hprov sl hsl
    exact ⟨p, hp, h1⟩
  obtain ⟨fs, ft, hcm, _, _⟩ := cm_some (algName alg q) procs tl hpid
  refine ⟨_, heq.trans hcm, ?_, ?_⟩
  · intro p hp
    rw [metricsFrom_timeline, hdur p.pid, burstFor_self procs hn p hp]
  · intro h p hp
    rw [metricsFrom_timeline, hcnt h p.pid, pcountFor_self procs hn p hp]

theorem claim_C1_witness :
    ∃ r, runAlg Alg.FCFS seedProcs 2 = some r ∧
      (∀ p ∈ seedProcs, durFor p.pid r.timeline = p.burst) ∧
      (Alg.FCFS ≠ Alg.RR → ∀ p ∈ seedProcs, countFor p.pid r.timeline = 1) :=
  claim_C1 seedProcs 2 (by decide) (by decide) (by decide) Alg.FCFS

/-- C2: for bursts at least 1 and quantum at least 1, each algorithm's
timeline is sorted ascending by slice start, consecutive slices do not
overlap (`end ≤` next `start`), and every slice has `end > start`. -/
theorem claim_C2 (procs : List Process) (q : Int)
    (hb : ∀ p ∈ procs, 1 ≤ p.burst) (hq : 1 ≤ q) (alg : Alg) :
    ∃ r, runAlg alg procs q = some r ∧
      r.timeline.Pairwise (fun a b => a.start ≤ b.start) ∧
      r.timeline.Chain' (fun a b => a.«end» ≤ b.start) ∧
      (∀ sl ∈ r.timeline, sl.start < sl.«end») := by
  obtain ⟨tl, heq, _, _, hpw, hpos, hprov⟩ := runAlg_tl alg procs q hb hq
  have hpid : ∀ sl ∈ tl, ∃ p ∈ procs, p.pid = sl.pid := by
    intro sl hsl
    obtain ⟨p, hp, h1, _⟩ := hprov sl hsl
    exact ⟨p, hp, h1⟩
  obtain ⟨fs, ft, hcm, _, _⟩ := cm_some (algName alg q) procs tl hpid
  refine ⟨_, heq.trans hcm, ?_, ?_, ?_⟩
  · rw [metricsFrom_timeline]
    refine hpw.imp_of_mem ?_
    intro a b ha _ hr
    have := hpos a ha
    omega
  · rw [metricsFrom_timeline]
    exact hpw.chain'
  · rw [metricsFrom_timeline]
    exact hpos

theorem claim_C2_witness :
    ∃ r, runAlg Alg.RR seedProcs 2 = some r ∧
      r.timeline.Pairwise (fun a b => a.start ≤ b.start) ∧
      r.timeline.Chain' (fun a b => a.«end» ≤ b.start) ∧
      (∀ sl ∈ r.timeline, sl.start < sl.«end») :=
  claim_C2 seedProcs 2 (by decide) (by decide) Alg.RR

/-- C3: on an `(arrival, pid)`-sorted process list with bursts at least 1,
round robin with a quantum at least the maximum burst produces exactly the
FCFS timeline (hence the same slice start and end times for every process). -/
theorem claim_C3 (procs : List Process) (q : Int)
    (_hsorted : procs.Pairwise (fun a b => a.arrival < b.arrival ∨
      (a.arrival = b.arrival ∧ a.pid ≤ b.pid)))
    (hb : ∀ p ∈ procs, 1 ≤ p.burst) (hmax : ∀ p ∈ procs, p.burst ≤ q) :
    ∃ rR rF, round_robin procs q = some rR ∧ fcfs procs = some rF ∧
      rR.timeline = rF.timeline := by
  have hperm := sortLe_perm arrivalLe procs
  have hbs : ∀ p ∈ sortLe arrivalLe procs, 1 ≤ p.burst ∧ p.burst ≤ q :=
    fun p hp => ⟨hb p (hperm.mem_iff.mp hp), hmax p (hperm.mem_iff.mp hp)⟩
  have hrr := rr_eq_fcfs q (rrFuel procs) 0 (sortLe arrivalLe procs) [] []
    hbs (fun e he => absurd he (List.not_mem_nil e))
    (by
      rw [totalRem_nil, totalBurst_perm hperm, rrFuel]
      unfold totalBurst
      omega)
  have hpid : ∀ sl ∈ fcfsLoop 0 (sortLe arrivalLe procs),
      ∃ p ∈ procs, p.pid = sl.pid := by
    intro sl hsl
    obtain ⟨_, _, p, hp, h1, _⟩ :=
      (fcfsLoop_ord (sortLe arrivalLe procs) (fun p hp => (hbs p hp).1) 0).1 sl hsl
    exact ⟨p, hperm.mem_iff.mp hp, h1⟩
  obtain ⟨fsR, ftR, hcmR, _, _⟩ :=
    cm_some ("Round Robin (q=" ++ toString q ++ ")") procs
      (fcfsLoop 0 (sortLe arrivalLe procs)) hpid
  obtain ⟨fsF, ftF, hcmF, _, _⟩ :=
    cm_some "FCFS" procs (fcfsLoop 0 (sortLe arrivalLe procs)) hpid
  refine ⟨metricsFrom ("Round Robin (q=" ++ toString q ++ ")") procs
      (fcfsLoop 0 (sortLe arrivalLe procs)) fsR ftR,
    metricsFrom "FCFS" procs (fcfsLoop 0 (sortLe arrivalLe procs)) fsF ftF,
    ?_, hcmF, ?_⟩
  · show round_robin procs q = _
    rw [round_robin, hrr]
    simp only [List.nil_append, List.map_nil]
    exact hcmR
  · rw [metricsFrom_timeline, metricsFrom_timeline]

theorem claim_C3_witness :
    ∃ rR rF, round_robin seedProcs 9 = some rR ∧ fcfs seedProcs = some rF ∧
      rR.timeline = rF.timeline :=
  claim_C3 seedProcs 9 (by decide) (by decide) (by decide)

theorem fcfs_seed_eval : fcfs seedProcs = some seedFcfsResult := by
  rfl

/-- C4: on the four-process seed input, FCFS produces exactly the timeline
P1[0,7) P2[7,11) P3[11,12) P4[12,16), waiting times P1:0 P2:5 P3:7 P4:7,
average waiting 4.75 and average turnaround 8.75. -/
theorem claim_C4 :
    ∃ r, fcfs seedProcs = some r ∧
      r.timeline = [Slice.mk "P1" 0 7, Slice.mk "P2" 7 11,
        Slice.mk "P3" 11 12, Slice.mk "P4" 12 16] ∧
      r.waiting_times = [("P1", 0), ("P2", 5), ("P3", 7), ("P4", 7)] ∧
      r.avg_waiting = 19 / 4 ∧ r.avg_turnaround = 35 / 4 := by
  refine ⟨seedFcfsResult, fcfs_seed_eval, rfl, rfl, ?_, ?_⟩
  · show ((19 : Int) : ℚ) / ((4 : ℕ) : ℚ) = 19 / 4
    norm_num
  · show ((35 : Int) : ℚ) / ((4 : ℕ) : ℚ) = 35 / 4
    norm_num

/-- C5: `run_one` clamps a caller-supplied quantum below 1 to 1, so the
round-robin Result it returns equals round robin with quantum 1. -/
theorem claim_C5 (procs : List Process) (q : Int) (hq : q < 1) :
    run_one "RR" procs q = round_robin procs 1 := by
  rw [run_one, if_neg (by decide : ¬("RR" : String) = "FCFS"),
    if_neg (by decide : ¬("RR" : String) = "SJF"),
    if_neg (by decide : ¬("RR" : String) = "PRIORITY"),
    if_pos rfl]
  have : max 1 q = 1 := max_eq_left (by omega)
  rw [this]

theorem claim_C5_witness : run_one "RR" seedProcs 0 = round_robin seedProcs 1 :=
  claim_C5 seedProcs 0 (by decide)

theorem takeWhile_eq_filter_arrival (c : Int) : ∀ (l : List Process),
    l.Pairwise (fun a b => a.arrival ≤ b.arrival) →
    l.takeWhile (fun x => decide (x.arrival ≤ c)) =
      l.filter (fun x => decide (x.arrival ≤ c)) ∧
    l.dropWhile (fun x => decide (x.arrival ≤ c)) =
      l.filter (fun x => decide (¬(x.arrival ≤ c))) := by
  intro l
  induction l with
  | nil => intro _; exact ⟨rfl, rfl⟩
  | cons a l ih =>
    intro hpw
    rw [List.pairwise_cons] at hpw
    obtain ⟨ht, hd⟩ := ih hpw.2
    by_cases ha : a.arrival ≤ c
    · constructor
      · rw [List.takeWhile_cons_of_pos (by simpa using ha),
          List.filter_cons_of_pos (by simpa using ha), ht]
      · rw [List.dropWhile_cons_of_pos (by simpa using ha),
          List.filter_cons_of_neg (by simpa using ha), hd]
    · constructor
      · rw [List.takeWhile_cons_of_neg (by simpa using ha),
          List.filter_cons_of_neg (by simpa using ha)]
        have : l.filter (fun x => decide (x.arrival ≤ c)) = [] := by
          rw [List.filter_eq_nil_iff]
          intro x hx
          have := hpw.1 x hx
          simp only [decide_eq_true_eq]
          omega
        rw [this]
      · rw [List.dropWhile_cons_of_neg (by simpa using ha),
          List.filter_cons_of_pos (by simpa using ha)]
        congr 1
        have : ∀ x ∈ l, (fun (x : Process) => decide (¬(x.arrival ≤ c))) x = true := by
          intro x hx
          have := hpw.1 x hx
          simp only [decide_eq_true_eq]
          omega
        exact (List.filter_eq_self.mpr this).symm

/-- C6: one round-robin step, taken from a state where every pending
process arrives strictly after the current time `t` (as is the case right
after the previous step's admissions).  When the head process is preempted
with remaining work, every not-yet-admitted process whose arrival is at
most the slice end `t + min q rem` is appended to the queue, and the
preempted process is re-appended after all of them, including processes
arriving exactly at the slice end. -/
theorem claim_C6 (q : Int) (fuel : Nat) (t : Int) (pending : List Process)
    (p : Process) (rem : Int) (qtl : List (Process × Int)) (acc : List Slice)
    (hsorted : pending.Pairwise (fun a b => a.arrival ≤ b.arrival))
    (hnadm : ∀ x ∈ pending, ¬(x.arrival ≤ t))
    (hpre : 0 < rem - min q rem) :
    rrLoop q (fuel + 1) t pending ((p, rem) :: qtl) acc =
      rrLoop q fuel (t + min q rem)
        (pending.filter (fun x => decide (¬(x.arrival ≤ t + min q rem))))
        ((qtl ++ (pending.filter (fun x => decide (x.arrival ≤ t + min q rem))).map
          (fun x => (x, x.burst))) ++ [(p, rem - min q rem)])
        (acc ++ [Slice.mk p.pid t (t + min q rem)]) := by
  have ht1 : pending.takeWhile (fun x => decide (x.arrival ≤ t)) = [] := by
    cases pending with
    | nil => rfl
    | cons a l =>
      rw [List.takeWhile_cons_of_neg]
      simpa using hnadm a (List.mem_cons_self a l)
  have ht2 : pending.dropWhile (fun x => decide (x.arrival ≤ t)) = pending := by
    cases pending with
    | nil => rfl
    | cons a l =>
      rw [List.dropWhile_cons_of_neg]
      simpa using hnadm a (List.mem_cons_self a l)
  obtain ⟨hfil1, hfil2⟩ := takeWhile_eq_filter_arrival (t + min q rem) pending hsorted
  simp only [rrLoop, ht1, ht2, List.map_nil, List.append_nil]
  rw [if_pos hpre, hfil1, hfil2]

theorem claim_C6_witness :
    rrLoop 2 (5 + 1) 0 [Process.mk "B" 2 3 0]
      ((Process.mk "A" 0 7 0, 7) :: []) [] =
      rrLoop 2 5 (0 + min 2 7)
        ([Process.mk "B" 2 3 0].filter
          (fun x => decide (¬(x.arrival ≤ 0 + min 2 7))))
        (([] ++ ([Process.mk "B" 2 3 0].filter
          (fun x => decide (x.arrival ≤ 0 + min 2 7))).map
            (fun x => (x, x.burst))) ++ [(Process.mk "A" 0 7 0, 7 - min 2 7)])
        ([] ++ [Slice.mk (Process.mk "A" 0 7 0).pid 0 (0 + min 2 7)]) :=
  claim_C6 2 5 0 [Process.mk "B" 2 3 0] (Process.mk "A" 0 7 0) 7 [] []
    (List.pairwise_singleton _ _) (by decide) (by decide)

/-- C7: for distinct pids (data-model requirement), bursts at least 1 and
quantum at least 1, the Result of each of the four algorithms satisfies,
for every process, `turnaround_time = waiting_time + burst` and
`waiting_time ≥ 0`. -/
theorem claim_C7 (procs : List Process) (q : Int)
    (hn : (procs.map Process.pid).Nodup)
    (hb : ∀ p ∈ procs, 1 ≤ p.burst) (hq : 1 ≤ q) (alg : Alg) :
    ∃ r, runAlg alg procs q = some r ∧
      ∀ p ∈ procs, ∃ w tt, dictGet r.waiting_times p.pid = some w ∧
        dictGet r.turnaround_times p.pid = some tt ∧
        tt = w + p.burst ∧ 0 ≤ w := by
  obtain ⟨tl, heq, hdur, _, hpw, hpos, hprov⟩ := runAlg_tl alg procs q hb hq
  have hpid : ∀ sl ∈ tl, ∃ p ∈ procs, p.pid = sl.pid := by
    intro sl hsl
    obtain ⟨p, hp, h1, _⟩ := hprov sl hsl
    exact ⟨p, hp, h1⟩
  obtain ⟨fs, ft, hcm, hfs, hft⟩ := cm_some (algName alg q) procs tl hpid
  refine ⟨_, heq.trans hcm, ?_⟩
  intro p hp
  refine ⟨wtOf ft p, ttOf ft p,
    metricsFrom_get_waiting (algName alg q) procs tl fs ft hn p hp,
    metricsFrom_get_turnaround (algName alg q) procs tl fs ft hn p hp, ?_, ?_⟩
  · unfold wtOf
    omega
  · have hftp := hft p hp
    have harr : ∀ sl ∈ tl, sl.pid = p.pid → p.arrival ≤ sl.start := by
      intro sl hsl hps
      obtain ⟨p', hp', h1, h2⟩ := hprov sl hsl
      have : p' = p := pid_unique procs hn p p' hp hp' (h1.trans hps)
      rw [← this]
      exact h2
    have hdurp : durFor p.pid tl = p.burst := by
      rw [hdur p.pid, burstFor_self procs hn p hp]
    have hbp := hb p hp
    obtain ⟨e, he, hge⟩ := lastEnd_ge p.pid tl p.arrival hpw hpos harr (by omega)
    have hled : lastEndD p.pid 0 tl = e := by
      rw [lastEndD, he]
    unfold wtOf ttOf
    rw [hftp]
    simp only [Option.getD_some]
    omega

theorem claim_C7_witness :
    ∃ r, runAlg Alg.SJF seedProcs 2 = some r ∧
      ∀ p ∈ seedProcs, ∃ w tt, dictGet r.waiting_times p.pid = some w ∧
        dictGet r.turnaround_times p.pid = some tt ∧
        tt = w + p.burst ∧ 0 ≤ w :=
  claim_C7 seedProcs 2 (by decide) (by decide) (by decide) Alg.SJF

/-- C8: dispatching with an algorithm name outside FCFS, SJF, PRIORITY and
RR falls back to FCFS: the Result is exactly the FCFS Result. -/
theorem claim_C8 (name : String) (procs : List Process) (q : Int)
    (h1 : name ≠ "FCFS") (h2 : name ≠ "SJF") (h3 : name ≠ "PRIORITY")
    (h4 : name ≠ "RR") :
    run_one name procs q = fcfs procs := by
  rw [run_one, if_neg h1, if_neg h2, if_neg h3, if_neg h4]

theorem claim_C8_witness : run_one "LOTTERY" seedProcs 2 = fcfs seedProcs :=
  claim_C8 "LOTTERY" seedProcs 2 (by decide) (by decide) (by decide) (by decide)

/-- C9: on the empty process list every one of the four algorithms
succeeds, with an empty timeline, empty per-pid dictionaries, and all three
averages equal to 0 (the divisor is floored to 1, so no division by zero
occurs). -/
theorem claim_C9 (alg : Alg) (q : Int) :
    ∃ r, runAlg alg [] q = some r ∧ r.timeline = [] ∧
      r.waiting_times = [] ∧ r.response_times = [] ∧ r.turnaround_times = [] ∧
      r.avg_waiting = 0 ∧ r.avg_response = 0 ∧ r.avg_turnaround = 0 := by
  have hz : ((0 : Int) : ℚ) / ((1 : ℕ) : ℚ) = 0 := by norm_num
  cases alg
  case FCFS =>
    exact ⟨_, rfl, rfl, rfl, rfl, rfl, hz, hz, hz⟩
  case SJF =>
    exact ⟨_, rfl, rfl, rfl, rfl, rfl, hz, hz, hz⟩
  case PRIORITY =>
    exact ⟨_, rfl, rfl, rfl, rfl, rfl, hz, hz, hz⟩
  case RR =>
    exact ⟨_, rfl, rfl, rfl, rfl, rfl, hz, hz, hz⟩

/-- C10: `compute_metrics` fails (a KeyError on the `first_start`
dictionary) exactly when some slice bears a pid absent from the process
list; when every slice pid occurs among the processes it succeeds, the
three per-pid dictionaries have key set exactly the set of input pids, and
(for the unique process of each pid) a process contributing no slices gets
response time 0 and a turnaround computed from finish time 0. -/
theorem claim_C10 (a : String) (procs : List Process) (tl : List Slice) :
    ((∃ sl ∈ tl, ∀ p ∈ procs, p.pid ≠ sl.pid) →
      compute_metrics a procs tl = none) ∧
    ((∀ sl ∈ tl, ∃ p ∈ procs, p.pid = sl.pid) →
      ∃ r, compute_metrics a procs tl = some r ∧
        (∀ k, (dictGet r.waiting_times k).isSome = true ↔
          k ∈ procs.map Process.pid) ∧
        (∀ k, (dictGet r.response_times k).isSome = true ↔
          k ∈ procs.map Process.pid) ∧
        (∀ k, (dictGet r.turnaround_times k).isSome = true ↔
          k ∈ procs.map Process.pid) ∧
        ((procs.map Process.pid).Nodup → ∀ p ∈ procs,
          (∀ sl ∈ tl, sl.pid ≠ p.pid) →
          dictGet r.response_times p.pid = some 0 ∧
          dictGet r.turnaround_times p.pid = some (0 - p.arrival))) := by
  constructor
  · intro ⟨sl0, hmem, hout⟩
    exact cm_none a procs tl sl0 hmem hout
  · intro hpid
    obtain ⟨fs, ft, hcm, hfs, hft⟩ := cm_some a procs tl hpid
    refine ⟨_, hcm,
      metricsFrom_keys_waiting a procs tl fs ft,
      metricsFrom_keys_response a procs tl fs ft,
      metricsFrom_keys_turnaround a procs tl fs ft, ?_⟩
    intro hn p hp hnosl
    have hr := metricsFrom_get_response a procs tl fs ft hn p hp
    have ht := metricsFrom_get_turnaround a procs tl fs ft hn p hp
    constructor
    · rw [hr]
      unfold rtOf
      rw [hfs p hp]
      simp only [Option.getD_some]
      rw [firstStartFor_none p.pid tl hnosl]
    · rw [ht]
      unfold ttOf
      rw [hft p hp]
      simp only [Option.getD_some]
      have : lastEndFor p.pid tl = none :=
        (lastEndFor_none_iff p.pid tl).mpr (fun sl hsl => hnosl sl hsl)
      rw [lastEndD, this]

theorem claim_C10_witness :
    compute_metrics "X" [Process.mk "P1" 0 1 0] [Slice.mk "Q" 0 1] = none ∧
    ∃ r, compute_metrics "X" [Process.mk "P1" 0 1 0] [] = some r ∧
      dictGet r.response_times "P1" = some 0 ∧
      dictGet r.turnaround_times "P1" = some (0 - 0) := by
  constructor
  · exact (claim_C10 "X" [Process.mk "P1" 0 1 0] [Slice.mk "Q" 0 1]).1 (by decide)
  · obtain ⟨r, hr, _, _, _, hv⟩ :=
      (claim_C10 "X" [Process.mk "P1" 0 1 0] []).2 (by decide)
    obtain ⟨h5, h6⟩ := hv (by decide) (Process.mk "P1" 0 1 0) (by decide) (by decide)
    exact ⟨r, hr, h5, h6⟩
